import Mathlib

/-!
# tacktestbed: the rotation-coordination protocol of `commands.go`

A shallow embedding of `tlsServer` (the accept / poll / rotate loop), of the
control handler registered by `httpServer`, and of the unbuffered channel
`talkChan` that connects them.

* Go strings are byte sequences (`GoString`); `r.URL.Path[1:]` drops one byte.
* The handler body is a straight-line list of statements executed by a
  goroutine (`Proc`) that owns the local variable `s` and the response writer.
* `tlsServer` is a state machine over its local variables (`TlsState`) with one
  control point per blocking operation (`TlsPc`).
* The whole program is a transition system `step` driven by scheduler choices;
  a channel operation is a rendezvous of one sender with one receiver.
* Everything the file does not define (`NewPinState`, `pinState.new`,
  `pinState.next`, `tack.NewTackExtension`, the `tls` and `net` types) is a
  field of `Ext`.
-/

namespace Tacktestbed

/-! ## Strings -/

/-- A Go `string`: an immutable sequence of bytes, each a number below 256
(no operation of the program depends on the bound). -/
abbrev GoString := List Nat

/-- A hash value (`[]byte`). -/
abbrev Hash := List Nat

/-- The bytes of an ASCII string literal of the source. -/
def bytes (s : String) : GoString := s.toList.map Char.toNat

/-- The request token `"next"`. -/
def tokNext : GoString := bytes "next"

/-- The acknowledgment token `"done"`. -/
def tokDone : GoString := bytes "done"

/-- The success body `"OK next"`. -/
def okNext : GoString := bytes "OK next"

/-- The URL path `"/next"`. -/
def slashNext : GoString := bytes "/next"

/-- The body `fmt.Fprintf(w, "Hi there, I don't know \"%s\"!", request)` writes. -/
def unknownBody (request : GoString) : GoString :=
  bytes "Hi there, I don't know \"" ++ request ++ bytes "\"!"

/-! ## The control handler (`httpServer`, lines 157-174) -/

/-- The slice expression `r.URL.Path[1:]`: `none` is the run-time panic
"slice bounds out of range". -/
def sliceFrom1 (path : GoString) : Option GoString :=
  match path with
  | [] => none
  | _ :: rest => some rest

/-- One statement of the handler body. -/
inductive Stmt where
  /-- The send `talkChan <- tok`. -/
  | chanSend (tok : GoString)
  /-- The receive `s := <- talkChan`. -/
  | chanRecvS
  /-- The call `fmt.Fprintf(os.Stderr, "httpServer channel response %v\n", s)`. -/
  | logS
  /-- A call `fmt.Fprintf(w, ...)` writing `body` to the response. -/
  | write (body : GoString)
  deriving DecidableEq

/-- The statements of `case "next":`. -/
def nextBranch : List Stmt :=
  [.chanSend tokNext, .chanRecvS, .logS, .write okNext]

/-- The statements of `default:`. -/
def defaultBranch (request : GoString) : List Stmt :=
  [.write (unknownBody request)]

/-- The handler: `request := r.URL.Path[1:]` followed by the `switch`.
`none` is the panic of the slice expression. -/
def handler (path : GoString) : Option (List Stmt) :=
  match sliceFrom1 path with
  | none => none
  | some request =>
    if request = tokNext then some nextBranch else some (defaultBranch request)

/-- What a handler does that can be seen from outside. -/
inductive HEvent where
  | sent (tok : GoString)
  | received (tok : GoString)
  | logged (tok : GoString)
  | wrote (body : GoString)
  /-- The goroutine is parked on `<- talkChan` with nothing to receive. -/
  | blocked
  deriving DecidableEq

/-- Run handler statements in isolation: sends always complete, each receive
takes the next value of `inbox` and parks when `inbox` is empty. `s` is the
handler's local variable. -/
def runStmts : List Stmt → GoString → List GoString → List HEvent
  | [], _, _ => []
  | .chanSend tok :: rest, s, inbox => .sent tok :: runStmts rest s inbox
  | .chanRecvS :: _, _, [] => [.blocked]
  | .chanRecvS :: rest, _, v :: inbox => .received v :: runStmts rest v inbox
  | .logS :: rest, s, inbox => .logged s :: runStmts rest s inbox
  | .write body :: rest, s, inbox => .wrote body :: runStmts rest s inbox

/-- The events of one handler invocation; `none` when the handler panics. -/
def handlerEvents (path : GoString) (inbox : List GoString) : Option (List HEvent) :=
  (handler path).map fun code => runStmts code [] inbox

/-- Whether an event is a channel operation. -/
def HEvent.isChanOp : HEvent → Bool
  | .sent _ => true
  | .received _ => true
  | .blocked => true
  | _ => false

/-- Whether a statement is a channel operation. -/
def Stmt.isChanOp : Stmt → Bool
  | .chanSend _ => true
  | .chanRecvS => true
  | _ => false

/-! ## External collaborators -/

/-- The declarations `commands.go` uses and does not define. -/
structure Ext where
  /-- The type of `*pinState`'s target. -/
  PinState : Type
  /-- The type `tack.Tack`. -/
  Tack : Type
  /-- The type `tack.TackExtension`. -/
  TackExtension : Type
  /-- The type `tls.Certificate`. -/
  Certificate : Type
  /-- The type `*net.TCPListener`. -/
  TCPListener : Type
  /-- The type `net.Conn`. -/
  Conn : Type
  /-- The type `error`. -/
  Error : Type
  /-- The value `NewPinState()` returns. -/
  NewPinState : PinState
  /-- The method `pinState.new(targetHash)`: new generator state and record. -/
  pinNew : PinState → Hash → PinState × Tack
  /-- The method `pinState.next(targetHash)`: new generator state and record. -/
  pinNext : PinState → Hash → PinState × Tack
  /-- The function `tack.NewTackExtension(tacks, activationFlags)`. -/
  NewTackExtension : List Tack → Nat → Except Error TackExtension

/-- The fields of `tls.Config` that `tlsServer` sets; a composite literal
`tls.Config{}` leaves every other field zero. -/
structure Config (E : Ext) where
  Certificates : List E.Certificate
  TackExtension : Option E.TackExtension

/-- The value `tls.NewListener(inner, &config)` returns. -/
structure Listener (E : Ext) where
  inner : E.TCPListener
  config : Config E

/-- The local variables of `tlsServer` that are live in the loop. -/
structure TlsState (E : Ext) where
  cert : E.Certificate
  targetHash : Hash
  pinState : E.PinState
  t : E.Tack
  tackExt : E.TackExtension
  config : Config E
  tcpListener : E.TCPListener
  tlsListener : Listener E

/-- The effects of `tlsServer`, in program order. -/
inductive Event (E : Ext) where
  | pinNew (h : Hash)
  | pinNext (h : Hash)
  | newTackExtension (ts : List E.Tack) (flags : Nat)
  | newListener (l : Listener E)
  | setDeadline
  | accept (r : Except E.Error E.Conn)
  /-- The `select` of line 124 ran and found `pending`. -/
  | chanPoll (pending : Option GoString)
  | logStderr (s : GoString)
  | chanSend (s : GoString)
  | spawnEcho (c : E.Conn)
  /-- A `panic` or `log.Fatal`: the process terminates. -/
  | fatal

/-- Control points of `tlsServer`. -/
inductive TlsPc (E : Ext) where
  /-- At the head of the `for` loop (line 118). -/
  | accepting (st : TlsState E)
  /-- Inside `if s == "next"`, before line 131. -/
  | rotating (st : TlsState E)
  /-- At `talkChan <- "done"` (line 140), waiting for a receiver. -/
  | sendingDone (st : TlsState E)
  /-- The process has terminated. -/
  | dead

/-- What the operating system hands to the set-up part of `tlsServer`. -/
structure Startup (E : Ext) where
  /-- Result of `tls.LoadX509KeyPair(*certFile, *keyFile)`. -/
  keyPair : Except E.Error E.Certificate
  /-- Result of `x509.ParseCertificate(cert.Certificate[0])` followed by the
  SHA-256 of `leaf.RawSubjectPublicKeyInfo`. -/
  spkiHash : Except E.Error Hash
  /-- Result of `net.ListenTCP("tcp4", 127.0.0.1:8443)`. -/
  listenTCP : Except E.Error E.TCPListener

/-- Lines 86-114 of `tlsServer`: everything before the loop. -/
def tlsServerInit (E : Ext) (su : Startup E) : TlsPc E × List (Event E) :=
  match su.keyPair with
  | .error _ => (.dead, [.fatal])
  | .ok cert =>
    match su.spkiHash with
    | .error _ => (.dead, [.fatal])
    | .ok targetHash =>
      let r := E.pinNew E.NewPinState targetHash
      match E.NewTackExtension [r.2] 1 with
      | .error _ =>
        (.dead, [.pinNew targetHash, .newTackExtension [r.2] 1, .fatal])
      | .ok tackExt =>
        let config : Config E := { Certificates := [cert], TackExtension := some tackExt }
        match su.listenTCP with
        | .error _ =>
          (.dead, [.pinNew targetHash, .newTackExtension [r.2] 1, .fatal])
        | .ok tcpListener =>
          let tlsListener : Listener E := { inner := tcpListener, config := config }
          (.accepting { cert := cert, targetHash := targetHash, pinState := r.1, t := r.2,
                        tackExt := tackExt, config := config, tcpListener := tcpListener,
                        tlsListener := tlsListener },
           [.pinNew targetHash, .newTackExtension [r.2] 1, .newListener tlsListener])

/-- Lines 118-127 and 142-151: from the loop head to the next control point.
`acc` is what `tlsListener.Accept()` returns, `pending` is what a
non-blocking receive on `talkChan` would find at that moment. -/
def acceptStep {E : Ext} (st : TlsState E) (acc : Except E.Error E.Conn)
    (pending : Option GoString) : TlsPc E × List (Event E) :=
  match acc with
  | .ok conn => (.accepting st, [.setDeadline, .accept acc, .spawnEcho conn])
  | .error _ =>
    match pending with
    | some s =>
      (if s = tokNext then .rotating st else .accepting st,
       [.setDeadline, .accept acc, .chanPoll (some s), .logStderr s])
    | none => (.accepting st, [.setDeadline, .accept acc, .chanPoll none])

/-- Lines 131-139: the body of `if s == "next"` up to the send. -/
def rotateStep {E : Ext} (st : TlsState E) : TlsPc E × List (Event E) :=
  let r := E.pinNext st.pinState st.targetHash
  match E.NewTackExtension [r.2] 1 with
  | .error _ =>
    (.dead, [.pinNext st.targetHash, .newTackExtension [r.2] 1, .fatal])
  | .ok tackExt =>
    let config : Config E := { Certificates := [st.cert], TackExtension := some tackExt }
    let tlsListener : Listener E := { inner := st.tcpListener, config := config }
    (.sendingDone { st with pinState := r.1, t := r.2, tackExt := tackExt, config := config,
                            tlsListener := tlsListener },
     [.pinNext st.targetHash, .newTackExtension [r.2] 1, .newListener tlsListener])

/-- Line 140 once a receiver is ready, then `continue`. -/
def sendDoneStep {E : Ext} (st : TlsState E) : TlsPc E × List (Event E) :=
  (.accepting st, [.chanSend tokDone])

/-- One whole iteration of the `for` loop, the send of line 140 finding a
receiver: `acceptStep`, then `rotateStep` and `sendDoneStep` when reached. -/
def loopIteration {E : Ext} (st : TlsState E) (acc : Except E.Error E.Conn)
    (pending : Option GoString) : TlsPc E × List (Event E) :=
  match acceptStep st acc pending with
  | (.rotating st1, ev1) =>
    match rotateStep st1 with
    | (.sendingDone st2, ev2) =>
      let r := sendDoneStep st2
      (r.1, ev1 ++ ev2 ++ r.2)
    | (pc, ev2) => (pc, ev1 ++ ev2)
  | r => r

/-- The function `tlsServer` on the first `inputs.length` iterations of its
loop: the set-up, then one `loopIteration` per element of `inputs`, which
gives what `Accept()` returns and what the `select` would find. It stops
where the process terminates. -/
def tlsServer (E : Ext) (su : Startup E)
    (inputs : List (Except E.Error E.Conn × Option GoString)) : TlsPc E × List (Event E) :=
  inputs.foldl
    (fun r inp =>
      match r.1 with
      | .accepting st => ((loopIteration st inp.1 inp.2).1, r.2 ++ (loopIteration st inp.1 inp.2).2)
      | _ => r)
    (tlsServerInit E su)

/-- Whether an event is a call of `pinState.next`. -/
def Event.isPinNext {E : Ext} : Event E → Bool
  | .pinNext _ => true
  | _ => false

/-- Whether an event is a channel send. -/
def Event.isChanSend {E : Ext} : Event E → Bool
  | .chanSend _ => true
  | _ => false

/-- Whether an event is the `select` on the channel. -/
def Event.isChanPoll {E : Ext} : Event E → Bool
  | .chanPoll _ => true
  | _ => false

/-- Whether an event is a listener construction. -/
def Event.isNewListener {E : Ext} : Event E → Bool
  | .newListener _ => true
  | _ => false

/-- Whether an event starts an echo goroutine. -/
def Event.isSpawnEcho {E : Ext} : Event E → Bool
  | .spawnEcho _ => true
  | _ => false

/-- The arguments of the `pinState.new` calls of a trace, in order. -/
def pinNewCalls {E : Ext} : List (Event E) → List Hash
  | [] => []
  | .pinNew h :: rest => h :: pinNewCalls rest
  | _ :: rest => pinNewCalls rest

/-- The arguments of the `pinState.next` calls of a trace, in order. -/
def pinNextCalls {E : Ext} : List (Event E) → List Hash
  | [] => []
  | .pinNext h :: rest => h :: pinNextCalls rest
  | _ :: rest => pinNextCalls rest

/-! ## The program as a transition system -/

/-- A goroutine running the handler. -/
structure Proc where
  /-- The statements still to run. -/
  code : List Stmt
  /-- The local variable `s`. -/
  s : GoString
  /-- The bodies written to the response so far. -/
  out : List GoString
  deriving DecidableEq

/-- The goroutine `net/http` starts for a request. A panic of the handler is
recovered by `net/http`: the goroutine ends with nothing written. -/
def spawn (path : GoString) : Proc :=
  { code := (handler path).getD [], s := [], out := [] }

/-- The state of the process: `tlsServer`, the handler goroutines in order of
arrival, and the effects of `tlsServer` so far. -/
structure Sys (E : Ext) where
  tls : TlsPc E
  handlers : List Proc
  trace : List (Event E)

/-- What the scheduler and the environment can make happen next. -/
inductive Choice (E : Ext) where
  /-- A request for `path` arrives and its handler goroutine starts. -/
  | request (path : GoString)
  /-- The call `Accept()` returns `acc`; when it is an error, the `select`
  finds handler `sender` parked on its send, or nobody (`none`). -/
  | accept (acc : Except E.Error E.Conn) (sender : Option Nat)
  /-- The goroutine `tlsServer` runs lines 131-139. -/
  | rotate
  /-- The send `talkChan <- "done"` meets the receive of handler `i`. -/
  | ack (i : Nat)
  /-- The send of handler `i` meets the receive of handler `j`. -/
  | relay (i j : Nat)
  /-- Handler `i` runs its next statement, which is not a channel operation. -/
  | run (i : Nat)

/-- A request for `path` arrives: `net/http` starts a goroutine for it. -/
def stepRequest {E : Ext} (s : Sys E) (path : GoString) : Option (Sys E) :=
  some { s with handlers := s.handlers ++ [spawn path] }

/-- The loop head of `tlsServer` runs with `Accept()` returning `acc`. With
`sender = some i` handler `i` is parked on its send: that is what the `select`
finds, if it runs. With `sender = none` the `select` finds nothing. -/
def stepAccept {E : Ext} (s : Sys E) (acc : Except E.Error E.Conn) (sender : Option Nat) :
    Option (Sys E) :=
  match s.tls, sender with
  | .accepting st, none =>
    some { s with tls := (acceptStep st acc none).1,
                  trace := s.trace ++ (acceptStep st acc none).2 }
  | .accepting st, some i =>
    match s.handlers[i]? with
    | some p =>
      match p.code with
      | .chanSend tok :: rest =>
        match acc with
        | .ok _ =>
          some { s with tls := (acceptStep st acc (some tok)).1,
                        trace := s.trace ++ (acceptStep st acc (some tok)).2 }
        | .error _ =>
          some { tls := (acceptStep st acc (some tok)).1,
                 handlers := s.handlers.set i { p with code := rest },
                 trace := s.trace ++ (acceptStep st acc (some tok)).2 }
      | _ => none
    | none => none
  | _, _ => none

/-- The goroutine `tlsServer` runs lines 131-139. -/
def stepRotate {E : Ext} (s : Sys E) : Option (Sys E) :=
  match s.tls with
  | .rotating st =>
    some { s with tls := (rotateStep st).1, trace := s.trace ++ (rotateStep st).2 }
  | _ => none

/-- The send `talkChan <- "done"` meets the receive of handler `i`. -/
def stepAck {E : Ext} (s : Sys E) (i : Nat) : Option (Sys E) :=
  match s.tls, s.handlers[i]? with
  | .sendingDone st, some p =>
    match p.code with
    | .chanRecvS :: rest =>
      some { tls := (sendDoneStep st).1,
             handlers := s.handlers.set i { p with code := rest, s := tokDone },
             trace := s.trace ++ (sendDoneStep st).2 }
    | _ => none
  | _, _ => none

/-- The send of handler `i` meets the receive of handler `j`. -/
def stepRelay {E : Ext} (s : Sys E) (i j : Nat) : Option (Sys E) :=
  match s.handlers[i]?, s.handlers[j]? with
  | some p, some q =>
    match p.code, q.code with
    | .chanSend tok :: rest, .chanRecvS :: rest2 =>
      some { s with handlers :=
        (s.handlers.set i { p with code := rest }).set j { q with code := rest2, s := tok } }
    | _, _ => none
  | _, _ => none

/-- Handler `i` runs its next statement, which is not a channel operation. -/
def stepRun {E : Ext} (s : Sys E) (i : Nat) : Option (Sys E) :=
  match s.handlers[i]? with
  | some p =>
    match p.code with
    | .logS :: rest => some { s with handlers := s.handlers.set i { p with code := rest } }
    | .write body :: rest =>
      some { s with handlers :=
        s.handlers.set i { p with code := rest, out := p.out ++ [body] } }
    | _ => none
  | none => none

/-- Whether the process has terminated. -/
def TlsPc.isDead {E : Ext} : TlsPc E → Bool
  | .dead => true
  | _ => false

/-- One transition. `none`: the choice is not enabled. After a `panic` in
`tlsServer` the process is gone and nothing is enabled. -/
def step {E : Ext} (s : Sys E) (c : Choice E) : Option (Sys E) :=
  if s.tls.isDead then none
  else
    match c with
    | .request path => stepRequest s path
    | .accept acc sender => stepAccept s acc sender
    | .rotate => stepRotate s
    | .ack i => stepAck s i
    | .relay i j => stepRelay s i j
    | .run i => stepRun s i

/-- Run a schedule; `none` when some choice is not enabled. -/
def run {E : Ext} (s : Sys E) : List (Choice E) → Option (Sys E)
  | [] => some s
  | c :: cs => (step s c).bind fun s1 => run s1 cs

/-- The process right after the set-up of `tlsServer`, before any request. -/
def initSys (E : Ext) (su : Startup E) : Sys E :=
  { tls := (tlsServerInit E su).1, handlers := [], trace := (tlsServerInit E su).2 }

/-- The sum of `f` over the handlers. -/
def total (f : Proc → Nat) (l : List Proc) : Nat := (l.map f).sum

/-- Number of `"OK next"` bodies a handler has written. -/
def okOf (p : Proc) : Nat := p.out.count okNext

/-- Number of `"OK next"` bodies written so far, over all handlers. -/
def okCount {E : Ext} (s : Sys E) : Nat := total okOf s.handlers

/-- Number of `pinState.next` calls so far. -/
def nextCount {E : Ext} (s : Sys E) : Nat := (pinNextCalls s.trace).length

/-- Number of rotations completed so far: listeners built after the first. -/
def rotationCount {E : Ext} (s : Sys E) : Nat := s.trace.countP Event.isNewListener - 1

/-- Every handler started so far has returned. -/
def allReturned {E : Ext} (s : Sys E) : Bool := s.handlers.all fun p => p.code.isEmpty

/-- Strictly sequential use of the `"next"` endpoint: a request is for
`"/next"` and starts only after every earlier invocation has returned. -/
def seqAllowed {E : Ext} (s : Sys E) : Choice E → Bool
  | .request path => decide (path = slashNext) && allReturned s
  | _ => true

/-- A transition under strictly sequential use. -/
def seqStep {E : Ext} (s : Sys E) (c : Choice E) : Option (Sys E) :=
  if seqAllowed s c then step s c else none

/-- Run a schedule under strictly sequential use. -/
def runSeq {E : Ext} (s : Sys E) : List (Choice E) → Option (Sys E)
  | [] => some s
  | c :: cs => (seqStep s c).bind fun s1 => runSeq s1 cs

/-- The local variables of `tlsServer` at a control point of the loop. -/
def TlsPc.state? {E : Ext} : TlsPc E → Option (TlsState E)
  | .accepting st => some st
  | .rotating st => some st
  | .sendingDone st => some st
  | .dead => none

/-- The relation of the local variables `st` at some point of the loop to
their values `st0` at loop entry: certificate, target hash and TCP listener
are the same, and the configuration and the listener are those last built. -/
def TlsState.keeps {E : Ext} (st st0 : TlsState E) : Prop :=
  st.cert = st0.cert ∧ st.targetHash = st0.targetHash ∧ st.tcpListener = st0.tcpListener ∧
  st.config = { Certificates := [st0.cert], TackExtension := some st.tackExt } ∧
  st.tlsListener = { inner := st0.tcpListener, config := st.config }

/-- The invariant of the process started with local variables `st0`: one
`pinState.new` call, every `pinState.next` call with the same target hash,
and the local variables related to `st0` by `keeps`. -/
def Sys.inv {E : Ext} (s : Sys E) (st0 : TlsState E) : Prop :=
  pinNewCalls s.trace = [st0.targetHash] ∧
  pinNextCalls s.trace = List.replicate (nextCount s) st0.targetHash ∧
  ∀ st, s.tls.state? = some st → st.keeps st0

/-- Indicator of a handler with exactly `n` statements left. -/
def stageIs (n : Nat) (p : Proc) : Nat := if p.code.length = n then 1 else 0

/-- A handler of a `"/next"` request: it has run `k` of the four statements
of the branch, has written `"OK next"` exactly when it has run them all, and
once past its receive holds the acknowledgment `"done"` in `s`. -/
def ValidProc (p : Proc) : Prop :=
  ∃ k, k ≤ 4 ∧ p.code = nextBranch.drop k ∧ p.out = (if k = 4 then [okNext] else []) ∧
    (2 ≤ k → p.s = tokDone)

/-- The relation between `tlsServer` and the counts of a sequential run:
`b` handlers parked on the receive, `c` handlers released and not yet answered,
`ok` responses written, `nx` calls of `pinState.next`. -/
def tlsRel {E : Ext} (tls : TlsPc E) (b c ok nx : Nat) : Prop :=
  match tls with
  | .accepting _ => b = 0 ∧ nx = ok + c
  | .rotating _ => b = 1 ∧ nx = ok
  | .sendingDone _ => b = 1 ∧ nx = ok + 1
  | .dead => b = 1 ∧ nx = ok + 1

/-- The invariant of strictly sequential use: every handler is a `"/next"`
handler, at most one has not returned, and `tlsRel` holds. -/
def Sys.seqInv {E : Ext} (s : Sys E) : Prop :=
  (∀ p ∈ s.handlers, ValidProc p) ∧
  total (stageIs 4) s.handlers + total (stageIs 3) s.handlers
    + (total (stageIs 2) s.handlers + total (stageIs 1) s.handlers) ≤ 1 ∧
  okCount s + total (stageIs 4) s.handlers + total (stageIs 3) s.handlers
    + (total (stageIs 2) s.handlers + total (stageIs 1) s.handlers) = s.handlers.length ∧
  tlsRel s.tls (total (stageIs 3) s.handlers)
    (total (stageIs 2) s.handlers + total (stageIs 1) s.handlers) (okCount s) (nextCount s)

/-- The generation invariant of every run, for a reading `gen` of the
generation of a record and `cur` of the generation a generator state holds:
the current record and the generator are at one more than the number of
`pinState.next` calls. -/
def Sys.genInv {E : Ext} (gen : E.Tack → Nat) (cur : E.PinState → Nat) (s : Sys E) : Prop :=
  ∀ st, s.tls.state? = some st →
    gen st.t = nextCount s + 1 ∧ cur st.pinState = nextCount s + 1

/-- The listeners built and the `pinState.next` calls of a run: every call
was followed by a new listener, except the call after which `tlsServer`
panicked. -/
def Sys.rotInv {E : Ext} (s : Sys E) : Prop :=
  s.trace.countP Event.isNewListener + (if s.tls.isDead then 1 else 0) = nextCount s + 1

/-! ## The pin state generator -/

/-- Modelled from the spec: the Pin Record of section 3 (the type behind
`*tack.Tack` as seen by the core): target fingerprint and generation number. -/
structure PinRecord where
  target : Hash
  generation : Nat
  deriving DecidableEq

/-- Modelled from the spec: the state behind `NewPinState()`, whose source is
missing: the generation number issued last (section 4.1). -/
structure PinState where
  generation : Nat
  deriving DecidableEq

/-- Modelled from the spec: `NewPinState()`, missing from the sources; no
record has been issued. -/
def NewPinState : PinState := { generation := 0 }

/-- Modelled from the spec: `pinState.new`, missing from the sources:
"initialize(fingerprint): returns generation 1 for the given fingerprint". -/
def PinState.new (_ps : PinState) (fingerprint : Hash) : PinState × PinRecord :=
  ({ generation := 1 }, { target := fingerprint, generation := 1 })

/-- Modelled from the spec: `pinState.next`, missing from the sources:
"rotate(fingerprint): returns a new record with generation = previous
generation + 1 for the same fingerprint". -/
def PinState.next (ps : PinState) (fingerprint : Hash) : PinState × PinRecord :=
  ({ generation := ps.generation + 1 },
   { target := fingerprint, generation := ps.generation + 1 })

/-- The records of `n` successive `pinState.next` calls. -/
def rotations (ps : PinState) (fingerprint : Hash) : Nat → List PinRecord
  | 0 => []
  | n + 1 => (ps.next fingerprint).2 :: rotations (ps.next fingerprint).1 fingerprint n

/-- An instance of the collaborators: the generator of the spec, and an
assertion library that builds the payload of records up to generation
`limit` and reports an error beyond. -/
def specExt (limit : Nat) : Ext where
  PinState := PinState
  Tack := PinRecord
  TackExtension := List PinRecord
  Certificate := Nat
  TCPListener := Nat
  Conn := Nat
  Error := Unit
  NewPinState := NewPinState
  pinNew := PinState.new
  pinNext := PinState.next
  NewTackExtension := fun ts _ =>
    if ts.all (fun t => decide (t.generation ≤ limit)) then .ok ts else .error ()

/-- A start-up in which loading, parsing and listening succeed. -/
def goodStartup (limit : Nat) : Startup (specExt limit) :=
  { keyPair := .ok (7 : Nat), spkiHash := .ok [1, 2, 3], listenTCP := .ok (8443 : Nat) }

/-- Two `"/next"` requests in flight at once: the `select` of `tlsServer`
takes the request of handler 0, the receive of handler 0 then meets the send
of handler 1, and the only acknowledgment goes to handler 1. -/
def raceSchedule : List (Choice (specExt 5)) :=
  [.request slashNext, .request slashNext, .accept (.error ()) (some 0), .relay 1 0,
   .run 0, .run 0, .rotate, .ack 1, .run 1, .run 1]

/-- Two `"/next"` invocations one after the other, with an accepted
connection and an idle poll before the first rotation. -/
def seqSchedule : List (Choice (specExt 5)) :=
  [.request slashNext, .accept (.ok (1 : Nat)) (some 0), .accept (.error ()) none,
   .accept (.error ()) (some 0), .rotate, .ack 0, .run 0, .run 0,
   .request slashNext, .accept (.error ()) (some 1), .rotate, .ack 1, .run 1, .run 1]

/-- The state `seqSchedule` leads to. -/
def seqFinal : Sys (specExt 5) :=
  (runSeq (initSys (specExt 5) (goodStartup 5)) seqSchedule).getD
    (initSys (specExt 5) (goodStartup 5))

/-- Two `"/next"` requests in flight at once under `specExt 1`, where the
payload of generation 2 cannot be built: the `select` takes the request of
handler 0, the receive of handler 0 meets the send of handler 1, handler 0
logs and writes its response, and then the rotation for the request of
handler 0 runs and fails. -/
def crashSchedule : List (Choice (specExt 1)) :=
  [.request slashNext, .request slashNext, .accept (.error ()) (some 0), .relay 1 0,
   .run 0, .run 0, .rotate]

/-- One `"/next"` request under `specExt 1`, taken by the `select`. -/
def seqCrashSchedule : List (Choice (specExt 1)) :=
  [.request slashNext, .accept (.error ()) (some 0)]

/-- The state `seqCrashSchedule` leads to: `tlsServer` is about to rotate. -/
def seqCrashState : Sys (specExt 1) :=
  (runSeq (initSys (specExt 1) (goodStartup 1)) seqCrashSchedule).getD
    (initSys (specExt 1) (goodStartup 1))

/-- A state of `tlsServer` under `specExt`: the loop head right after set-up. -/
def demoState (limit : Nat) : TlsState (specExt limit) :=
  { cert := (7 : Nat), targetHash := [1, 2, 3],
    pinState := ({ generation := 1 } : PinState),
    t := ({ target := [1, 2, 3], generation := 1 } : PinRecord),
    tackExt := ([{ target := [1, 2, 3], generation := 1 }] : List PinRecord),
    config := { Certificates := [(7 : Nat)],
                TackExtension := some ([{ target := [1, 2, 3], generation := 1 }] : List PinRecord) },
    tcpListener := (8443 : Nat),
    tlsListener :=
      { inner := (8443 : Nat),
        config := { Certificates := [(7 : Nat)],
                    TackExtension :=
                      some ([{ target := [1, 2, 3], generation := 1 }] : List PinRecord) } } }

/-! ## The control handler: theorems -/

/-- C3: for a path `"/" ++ P` with `P` other than `"next"` the handler is the
single statement writing `Hi there, I don't know "P"!`, with `P` verbatim, and
whatever is offered on the channel its only event is that write: it neither
sends nor receives. -/
theorem handler_unknown_path (P : GoString) (inbox : List GoString) (hP : P ≠ tokNext) :
    handler (bytes "/" ++ P)
      = some [Stmt.write (bytes "Hi there, I don't know \"" ++ P ++ bytes "\"!")] ∧
    handlerEvents (bytes "/" ++ P) inbox
      = some [HEvent.wrote (bytes "Hi there, I don't know \"" ++ P ++ bytes "\"!")] ∧
    (handlerEvents (bytes "/" ++ P) inbox).map (fun evs => evs.any HEvent.isChanOp)
      = some false ∧
    (handler (bytes "/" ++ P)).map (fun code => code.any Stmt.isChanOp) = some false := by
  have h : handler (bytes "/" ++ P) = some (defaultBranch P) := by
    show (if P = tokNext then some nextBranch else some (defaultBranch P)) = _
    rw [if_neg hP]
  refine ⟨h, ?_, ?_, ?_⟩ <;> simp [handlerEvents, h, defaultBranch, unknownBody, runStmts,
    HEvent.isChanOp, Stmt.isChanOp]

/-- The request `/bogus` of the spec's example scenario. -/
theorem handler_unknown_path_witness :
    bytes "bogus" ≠ tokNext ∧
    handler (bytes "/" ++ bytes "bogus")
      = some [Stmt.write (bytes "Hi there, I don't know \"" ++ bytes "bogus" ++ bytes "\"!")] ∧
    handlerEvents (bytes "/" ++ bytes "bogus") [tokDone]
      = some [HEvent.wrote
          (bytes "Hi there, I don't know \"" ++ bytes "bogus" ++ bytes "\"!")] ∧
    (handlerEvents (bytes "/" ++ bytes "bogus") [tokDone]).map
        (fun evs => evs.any HEvent.isChanOp) = some false ∧
    (handler (bytes "/" ++ bytes "bogus")).map (fun code => code.any Stmt.isChanOp)
      = some false :=
  ⟨by decide, handler_unknown_path (bytes "bogus") [tokDone] (by decide)⟩

/-- C4 as stated fails: the handler for `"/next"` that receives the token
`"next"`, which is not the acknowledgment, writes `"OK next"` all the same. -/
theorem handler_next_ok_without_ack :
    handlerEvents slashNext [tokNext]
      = some [HEvent.sent tokNext, HEvent.received tokNext, HEvent.logged tokNext,
              HEvent.wrote okNext] ∧
    tokNext ≠ tokDone := by
  decide

/-- C4, amended: for the path `"/next"` the handler sends the token `"next"`
once, then parks on the channel; with nothing to receive it has written
nothing, and once it has received one value `v`, whatever `v` is, it logs `v`
and writes exactly `"OK next"`, performing no further channel operation. -/
theorem handler_next_protocol (v : GoString) (inbox : List GoString) :
    handler slashNext
      = some [Stmt.chanSend tokNext, Stmt.chanRecvS, Stmt.logS, Stmt.write okNext] ∧
    handlerEvents slashNext [] = some [HEvent.sent tokNext, HEvent.blocked] ∧
    handlerEvents slashNext (v :: inbox)
      = some [HEvent.sent tokNext, HEvent.received v, HEvent.logged v, HEvent.wrote okNext] := by
  have h : handler slashNext = some nextBranch := by decide
  refine ⟨h, ?_, ?_⟩ <;> simp [handlerEvents, h, nextBranch, runStmts]

/-- C10: the slice `r.URL.Path[1:]` panics exactly on the empty path, the
handler panics exactly there, and on every non-empty path the handler is one of
its two branches: the `"next"` case when the rest of the path is `"next"`, the
default case for the rest of the path otherwise. -/
theorem handler_panics_iff_empty (path : GoString) :
    (sliceFrom1 path = none ↔ path = []) ∧
    (handler path = none ↔ path = []) ∧
    (∀ b rest, sliceFrom1 (b :: rest) = some rest ∧
      handler (b :: rest)
        = if rest = tokNext then some nextBranch else some (defaultBranch rest)) ∧
    (∀ b rest, handler (b :: rest) = some nextBranch ∨
      handler (b :: rest) = some (defaultBranch rest)) := by
  refine ⟨?_, ?_, ?_, ?_⟩
  · cases path <;> simp [sliceFrom1]
  · cases path with
    | nil => simp [handler, sliceFrom1]
    | cons b rest => by_cases h : rest = tokNext <;> simp [handler, sliceFrom1, h]
  · intro b rest
    exact ⟨rfl, rfl⟩
  · intro b rest
    by_cases h : rest = tokNext
    · left; simp [handler, sliceFrom1, h]
    · right; simp [handler, sliceFrom1, h]

/-! ## The pin state generator: theorems -/

/-- Generations and targets of successive rotations from any generator state. -/
theorem rotations_generations (ps : PinState) (fp : Hash) (N : Nat) :
    (rotations ps fp N).map (fun r => r.generation) = List.range' (ps.generation + 1) N ∧
    (rotations ps fp N).map (fun r => r.target) = List.replicate N fp := by
  induction N generalizing ps with
  | zero => simp [rotations]
  | succ n ih =>
    obtain ⟨h1, h2⟩ := ih (ps.next fp).1
    refine ⟨?_, ?_⟩
    · simp only [rotations, List.map_cons, h1, List.range'_succ]
      simp [PinState.next]
    · simp only [rotations, List.map_cons, h2, List.replicate_succ]
      simp [PinState.next]

/-- C5: for a fixed fingerprint, `pinState.new` returns a record of generation
1, and the records of `N` successive `pinState.next` calls after it carry the
generations 2, 3, ..., N+1: the first is the initial generation plus 1, each
later one the previous plus 1, so they strictly increase and none repeats;
every record is for the same fingerprint. -/
theorem generations_strictly_increase (ps : PinState) (fp : Hash) (N : Nat) :
    (ps.new fp).2.generation = 1 ∧ (ps.new fp).2.target = fp ∧
    (rotations (ps.new fp).1 fp N).map (fun r => r.generation) = List.range' 2 N ∧
    List.Chain (fun a b => b = a + 1) (ps.new fp).2.generation
      ((rotations (ps.new fp).1 fp N).map (fun r => r.generation)) ∧
    (rotations (ps.new fp).1 fp N).map (fun r => r.target) = List.replicate N fp ∧
    ((rotations (ps.new fp).1 fp N).map (fun r => r.generation)).Pairwise (· < ·) ∧
    ((rotations (ps.new fp).1 fp N).map (fun r => r.generation)).Nodup := by
  have h := (rotations_generations (ps.new fp).1 fp N).1
  have h1 : (ps.new fp).1.generation + 1 = 2 := rfl
  rw [h1] at h
  refine ⟨rfl, rfl, h, ?_, (rotations_generations (ps.new fp).1 fp N).2, ?_, ?_⟩
  · rw [h]; exact List.chain_succ_range' 1 N 1
  · rw [h]; exact List.pairwise_lt_range' 2 N
  · rw [h]; exact List.nodup_range' 2 N

/-! ## The loop of `tlsServer`: theorems -/

/-- The rotation body when the payload is built. -/
theorem rotateStep_ok {E : Ext} (st : TlsState E) (ext : E.TackExtension)
    (hext : E.NewTackExtension [(E.pinNext st.pinState st.targetHash).2] 1 = .ok ext) :
    rotateStep st
      = (TlsPc.sendingDone
          { st with
            pinState := (E.pinNext st.pinState st.targetHash).1,
            t := (E.pinNext st.pinState st.targetHash).2,
            tackExt := ext,
            config := Config.mk [st.cert] (some ext),
            tlsListener := Listener.mk st.tcpListener (Config.mk [st.cert] (some ext)) },
         [Event.pinNext st.targetHash,
          Event.newTackExtension [(E.pinNext st.pinState st.targetHash).2] 1,
          Event.newListener (Listener.mk st.tcpListener (Config.mk [st.cert] (some ext)))]) := by
  simp only [rotateStep, hext]

/-- The rotation body when the payload cannot be built. -/
theorem rotateStep_error {E : Ext} (st : TlsState E) (err : E.Error)
    (hext : E.NewTackExtension [(E.pinNext st.pinState st.targetHash).2] 1 = .error err) :
    rotateStep st
      = (TlsPc.dead,
         [Event.pinNext st.targetHash,
          Event.newTackExtension [(E.pinNext st.pinState st.targetHash).2] 1,
          Event.fatal]) := by
  simp only [rotateStep, hext]

/-- The iteration that receives `"next"`, in terms of the rotation body. -/
theorem loopIteration_next {E : Ext} (st : TlsState E) (e : E.Error) :
    loopIteration st (.error e) (some tokNext)
      = match rotateStep st with
        | (.sendingDone st2, ev2) =>
          (TlsPc.accepting st2,
           [Event.setDeadline, Event.accept (.error e), Event.chanPoll (some tokNext),
            Event.logStderr tokNext] ++ ev2 ++ [Event.chanSend tokDone])
        | (pc, ev2) =>
          (pc, [Event.setDeadline, Event.accept (.error e), Event.chanPoll (some tokNext),
                Event.logStderr tokNext] ++ ev2) := by
  simp only [loopIteration, acceptStep, if_true, sendDoneStep]

/-- C6: when the poll receives a token other than `"next"`, the iteration
ends back at the loop head with every local variable (pin state, pin record,
configuration, listener) as before; its effects are the deadline, the accept,
the poll and the log line: no `pinState.next` call, no listener, no send. -/
theorem poll_other_token_is_ignored {E : Ext} (st : TlsState E) (e : E.Error)
    (s : GoString) (hs : s ≠ tokNext) :
    loopIteration st (.error e) (some s)
      = (TlsPc.accepting st,
         [Event.setDeadline, Event.accept (.error e), Event.chanPoll (some s),
          Event.logStderr s]) ∧
    pinNextCalls (loopIteration st (.error e) (some s)).2 = [] ∧
    (loopIteration st (.error e) (some s)).2.countP Event.isChanSend = 0 ∧
    (loopIteration st (.error e) (some s)).2.countP Event.isNewListener = 0 := by
  have h : loopIteration st (.error e) (some s)
      = (TlsPc.accepting st,
         [Event.setDeadline, Event.accept (.error e), Event.chanPoll (some s),
          Event.logStderr s]) := by
    simp [loopIteration, acceptStep, hs]
  rw [h]
  simp [pinNextCalls, Event.isChanSend, Event.isNewListener]

/-- The loop receives the stray token `"done"`. -/
theorem poll_other_token_is_ignored_witness :
    tokDone ≠ tokNext ∧
    loopIteration (demoState 5) (.error ()) (some tokDone)
      = (TlsPc.accepting (demoState 5),
         [Event.setDeadline, Event.accept (.error ()), Event.chanPoll (some tokDone),
          Event.logStderr tokDone]) :=
  ⟨by decide, (poll_other_token_is_ignored (demoState 5) () tokDone (by decide)).1⟩

/-- C9: an iteration whose `Accept` succeeded ends at the loop head with the
local variables unchanged, whatever is pending on the channel; its effects are
the deadline, the accept and one echo goroutine for the accepted connection:
no `select`, no send. An iteration whose `Accept` failed, with any error,
runs the `select` and starts no echo goroutine; with nothing pending it falls
through `default` back to the loop head, state unchanged. So the `select` runs
exactly on the iterations whose `Accept` failed. -/
theorem accept_ok_never_polls {E : Ext} (st : TlsState E) (acc : Except E.Error E.Conn)
    (conn : E.Conn) (e : E.Error) (pending : Option GoString) :
    loopIteration st (.ok conn) pending
      = (TlsPc.accepting st,
         [Event.setDeadline, Event.accept (.ok conn), Event.spawnEcho conn]) ∧
    (loopIteration st (.ok conn) pending).2.countP Event.isSpawnEcho = 1 ∧
    (loopIteration st (.ok conn) pending).2.any Event.isChanPoll = false ∧
    (loopIteration st (.ok conn) pending).2.any Event.isChanSend = false ∧
    loopIteration st (.error e) none
      = (TlsPc.accepting st,
         [Event.setDeadline, Event.accept (.error e), Event.chanPoll none]) ∧
    (loopIteration st (.error e) pending).2.take 3
      = [Event.setDeadline, Event.accept (.error e), Event.chanPoll pending] ∧
    (loopIteration st (.error e) pending).2.countP Event.isChanPoll = 1 ∧
    (loopIteration st (.error e) pending).2.countP Event.isSpawnEcho = 0 ∧
    ((loopIteration st acc pending).2.any Event.isChanPoll = true ↔ ∃ e1, acc = .error e1) := by
  have hok : loopIteration st (.ok conn) pending
      = (TlsPc.accepting st,
         [Event.setDeadline, Event.accept (.ok conn), Event.spawnEcho conn]) := by
    simp [loopIteration, acceptStep]
  have hnone : loopIteration st (.error e) none
      = (TlsPc.accepting st,
         [Event.setDeadline, Event.accept (.error e), Event.chanPoll none]) := by
    simp [loopIteration, acceptStep]
  have herr : ∀ (e1 : E.Error) (p : Option GoString), ∃ tl,
      (loopIteration st (.error e1) p).2
        = [Event.setDeadline, Event.accept (.error e1), Event.chanPoll p] ++ tl ∧
      tl.countP Event.isChanPoll = 0 ∧ tl.countP Event.isSpawnEcho = 0 := by
    intro e1 p
    cases p with
    | none => exact ⟨[], by simp [loopIteration, acceptStep], rfl, rfl⟩
    | some s =>
      by_cases hs : s = tokNext
      · subst hs
        cases hx : E.NewTackExtension [(E.pinNext st.pinState st.targetHash).2] 1 with
        | error x =>
          refine ⟨[Event.logStderr tokNext, Event.pinNext st.targetHash,
            Event.newTackExtension [(E.pinNext st.pinState st.targetHash).2] 1,
            Event.fatal], ?_, rfl, rfl⟩
          rw [loopIteration_next, rotateStep_error st x hx]
          rfl
        | ok x =>
          refine ⟨[Event.logStderr tokNext, Event.pinNext st.targetHash,
            Event.newTackExtension [(E.pinNext st.pinState st.targetHash).2] 1,
            Event.newListener (Listener.mk st.tcpListener (Config.mk [st.cert] (some x))),
            Event.chanSend tokDone], ?_, rfl, rfl⟩
          rw [loopIteration_next, rotateStep_ok st x hx]
          rfl
      · exact ⟨[Event.logStderr s], by simp [loopIteration, acceptStep, hs], rfl, rfl⟩
  refine ⟨hok, ?_, ?_, ?_, hnone, ?_, ?_, ?_, ?_⟩
  · rw [hok]; rfl
  · rw [hok]; rfl
  · rw [hok]; rfl
  · obtain ⟨tl, h, -, -⟩ := herr e pending
    rw [h]; rfl
  · obtain ⟨tl, h, h1, -⟩ := herr e pending
    rw [h, List.countP_append, h1]; rfl
  · obtain ⟨tl, h, -, h2⟩ := herr e pending
    rw [h, List.countP_append, h2]; rfl
  · cases acc with
    | ok c =>
      have : loopIteration st (.ok c) pending
          = (TlsPc.accepting st,
             [Event.setDeadline, Event.accept (.ok c), Event.spawnEcho c]) := by
        simp [loopIteration, acceptStep]
      rw [this]
      simp [Event.isChanPoll]
    | error e1 =>
      obtain ⟨tl, h, -, -⟩ := herr e1 pending
      rw [h]
      simp [Event.isChanPoll]

/-- The rotation iteration from a state whose configuration holds the one
certificate of the state. -/
theorem loopIteration_rotation {E : Ext} (st : TlsState E) (e : E.Error)
    (ext : E.TackExtension) (hcert : st.config.Certificates = [st.cert])
    (hinner : st.tlsListener.inner = st.tcpListener)
    (hext : E.NewTackExtension [(E.pinNext st.pinState st.targetHash).2] 1 = .ok ext) :
    loopIteration st (.error e) (some tokNext)
      = (TlsPc.accepting
          { cert := st.cert, targetHash := st.targetHash,
            pinState := (E.pinNext st.pinState st.targetHash).1,
            t := (E.pinNext st.pinState st.targetHash).2,
            tackExt := ext,
            config := { Certificates := st.config.Certificates, TackExtension := some ext },
            tcpListener := st.tcpListener,
            tlsListener :=
              { inner := st.tlsListener.inner,
                config := { Certificates := st.config.Certificates,
                            TackExtension := some ext } } },
         [Event.setDeadline, Event.accept (.error e), Event.chanPoll (some tokNext),
          Event.logStderr tokNext,
          Event.pinNext st.targetHash,
          Event.newTackExtension [(E.pinNext st.pinState st.targetHash).2] 1,
          Event.newListener
            { inner := st.tlsListener.inner,
              config := { Certificates := st.config.Certificates,
                          TackExtension := some ext } },
          Event.chanSend tokDone]) := by
  rw [loopIteration_next, rotateStep_ok st ext hext, hcert, hinner]
  rfl

/-! ## Inversion of the transitions -/

theorem stepAccept_some {E : Ext} (s s1 : Sys E) (acc : Except E.Error E.Conn)
    (sender : Option Nat) (h : stepAccept s acc sender = some s1) :
    ∃ st, s.tls = TlsPc.accepting st ∧
      ((sender = none ∧
          s1 = { s with tls := (acceptStep st acc none).1,
                        trace := s.trace ++ (acceptStep st acc none).2 }) ∨
       (∃ i p tok rest, sender = some i ∧ s.handlers[i]? = some p ∧
          p.code = Stmt.chanSend tok :: rest ∧
          ((∃ c, acc = .ok c ∧
              s1 = { s with tls := (acceptStep st acc (some tok)).1,
                            trace := s.trace ++ (acceptStep st acc (some tok)).2 }) ∨
           (∃ e, acc = .error e ∧
              s1 = { tls := (acceptStep st acc (some tok)).1,
                     handlers := s.handlers.set i { p with code := rest },
                     trace := s.trace ++ (acceptStep st acc (some tok)).2 })))) := by
  unfold stepAccept at h
  cases htls : s.tls with
  | accepting st =>
    refine ⟨st, rfl, ?_⟩
    rw [htls] at h
    cases sender with
    | none =>
      simp only [Option.some.injEq] at h
      exact Or.inl ⟨rfl, h.symm⟩
    | some i =>
      simp only at h
      cases hp : s.handlers[i]? with
      | none => rw [hp] at h; exact absurd h (by simp)
      | some p =>
        rw [hp] at h
        simp only at h
        cases hc : p.code with
        | nil => rw [hc] at h; exact absurd h (by simp)
        | cons stmt rest =>
          rw [hc] at h
          cases stmt with
          | chanSend tok =>
            simp only at h
            cases acc with
            | ok c =>
              simp only [Option.some.injEq] at h
              exact Or.inr ⟨i, p, tok, rest, rfl, hp, hc, Or.inl ⟨c, rfl, h.symm⟩⟩
            | error e =>
              simp only [Option.some.injEq] at h
              exact Or.inr ⟨i, p, tok, rest, rfl, hp, hc, Or.inr ⟨e, rfl, h.symm⟩⟩
          | chanRecvS => exact absurd h (by simp)
          | logS => exact absurd h (by simp)
          | write b => exact absurd h (by simp)
  | rotating st => rw [htls] at h; cases sender <;> exact absurd h (by simp)
  | sendingDone st => rw [htls] at h; cases sender <;> exact absurd h (by simp)
  | dead => rw [htls] at h; cases sender <;> exact absurd h (by simp)

theorem stepRotate_some {E : Ext} (s s1 : Sys E) (h : stepRotate s = some s1) :
    ∃ st, s.tls = TlsPc.rotating st ∧
      s1 = { s with tls := (rotateStep st).1, trace := s.trace ++ (rotateStep st).2 } := by
  unfold stepRotate at h
  cases htls : s.tls with
  | rotating st =>
    rw [htls] at h
    simp only [Option.some.injEq] at h
    exact ⟨st, rfl, h.symm⟩
  | accepting st => rw [htls] at h; exact absurd h (by simp)
  | sendingDone st => rw [htls] at h; exact absurd h (by simp)
  | dead => rw [htls] at h; exact absurd h (by simp)

theorem stepAck_some {E : Ext} (s s1 : Sys E) (i : Nat) (h : stepAck s i = some s1) :
    ∃ st p rest, s.tls = TlsPc.sendingDone st ∧ s.handlers[i]? = some p ∧
      p.code = Stmt.chanRecvS :: rest ∧
      s1 = { tls := TlsPc.accepting st,
             handlers := s.handlers.set i { p with code := rest, s := tokDone },
             trace := s.trace ++ [Event.chanSend tokDone] } := by
  unfold stepAck at h
  cases htls : s.tls with
  | sendingDone st =>
    rw [htls] at h
    cases hp : s.handlers[i]? with
    | none => rw [hp] at h; exact absurd h (by simp)
    | some p =>
      rw [hp] at h
      simp only at h
      cases hc : p.code with
      | nil => rw [hc] at h; exact absurd h (by simp)
      | cons stmt rest =>
        rw [hc] at h
        cases stmt with
        | chanRecvS =>
          simp only [Option.some.injEq, sendDoneStep] at h
          exact ⟨st, p, rest, rfl, rfl, hc, h.symm⟩
        | chanSend tok => exact absurd h (by simp)
        | logS => exact absurd h (by simp)
        | write b => exact absurd h (by simp)
  | accepting st => rw [htls] at h; exact absurd h (by simp)
  | rotating st => rw [htls] at h; exact absurd h (by simp)
  | dead => rw [htls] at h; exact absurd h (by simp)

theorem stepRelay_some {E : Ext} (s s1 : Sys E) (i j : Nat) (h : stepRelay s i j = some s1) :
    ∃ p q tok rest rest2, s.handlers[i]? = some p ∧ s.handlers[j]? = some q ∧
      p.code = Stmt.chanSend tok :: rest ∧ q.code = Stmt.chanRecvS :: rest2 ∧
      s1 = { s with handlers :=
        (s.handlers.set i { p with code := rest }).set j { q with code := rest2, s := tok } } := by
  unfold stepRelay at h
  cases hp : s.handlers[i]? with
  | none => rw [hp] at h; exact absurd h (by simp)
  | some p =>
    cases hq : s.handlers[j]? with
    | none => rw [hp, hq] at h; exact absurd h (by simp)
    | some q =>
      rw [hp, hq] at h
      simp only at h
      cases hc : p.code with
      | nil => rw [hc] at h; exact absurd h (by simp)
      | cons stmt rest =>
        cases hc2 : q.code with
        | nil => rw [hc, hc2] at h; cases stmt <;> exact absurd h (by simp)
        | cons stmt2 rest2 =>
          rw [hc, hc2] at h
          cases stmt <;> cases stmt2 <;> simp only [Option.some.injEq, reduceCtorEq] at h
          exact ⟨p, q, _, rest, rest2, rfl, rfl, hc, hc2, h.symm⟩

theorem stepRun_some {E : Ext} (s s1 : Sys E) (i : Nat) (h : stepRun s i = some s1) :
    ∃ p rest, s.handlers[i]? = some p ∧
      ((p.code = Stmt.logS :: rest ∧
          s1 = { s with handlers := s.handlers.set i { p with code := rest } }) ∨
       (∃ body, p.code = Stmt.write body :: rest ∧
          s1 = { s with handlers :=
            s.handlers.set i { p with code := rest, out := p.out ++ [body] } })) := by
  unfold stepRun at h
  cases hp : s.handlers[i]? with
  | none => rw [hp] at h; exact absurd h (by simp)
  | some p =>
    rw [hp] at h
    simp only at h
    cases hc : p.code with
    | nil => rw [hc] at h; exact absurd h (by simp)
    | cons stmt rest =>
      rw [hc] at h
      cases stmt with
      | logS =>
        simp only [Option.some.injEq] at h
        exact ⟨p, rest, rfl, Or.inl ⟨hc, h.symm⟩⟩
      | write body =>
        simp only [Option.some.injEq] at h
        exact ⟨p, rest, rfl, Or.inr ⟨body, hc, h.symm⟩⟩
      | chanSend tok => exact absurd h (by simp)
      | chanRecvS => exact absurd h (by simp)

theorem step_some {E : Ext} (s s1 : Sys E) (c : Choice E) (h : step s c = some s1) :
    s.tls.isDead = false ∧
    match c with
    | .request path => stepRequest s path = some s1
    | .accept acc sender => stepAccept s acc sender = some s1
    | .rotate => stepRotate s = some s1
    | .ack i => stepAck s i = some s1
    | .relay i j => stepRelay s i j = some s1
    | .run i => stepRun s i = some s1 := by
  unfold step at h
  cases hd : s.tls.isDead with
  | true => rw [hd] at h; exact absurd h (by simp)
  | false =>
    rw [hd] at h
    refine ⟨rfl, ?_⟩
    cases c <;> exact h
/-! ## Invariants of every run -/

theorem pinNewCalls_append {E : Ext} (l1 l2 : List (Event E)) :
    pinNewCalls (l1 ++ l2) = pinNewCalls l1 ++ pinNewCalls l2 := by
  induction l1 with
  | nil => rfl
  | cons ev l ih => cases ev <;> simp [pinNewCalls, ih]

theorem pinNextCalls_append {E : Ext} (l1 l2 : List (Event E)) :
    pinNextCalls (l1 ++ l2) = pinNextCalls l1 ++ pinNextCalls l2 := by
  induction l1 with
  | nil => rfl
  | cons ev l ih => cases ev <;> simp [pinNextCalls, ih]

/-- The loop head moves to the loop head or into the rotation, with the same
local variables, and calls neither generator method. -/
theorem acceptStep_facts {E : Ext} (st : TlsState E) (acc : Except E.Error E.Conn)
    (pending : Option GoString) :
    (acceptStep st acc pending).1.state? = some st ∧
    pinNewCalls (acceptStep st acc pending).2 = [] ∧
    pinNextCalls (acceptStep st acc pending).2 = [] := by
  cases acc with
  | ok c => exact ⟨rfl, rfl, rfl⟩
  | error e =>
    cases pending with
    | none => exact ⟨rfl, rfl, rfl⟩
    | some s =>
      by_cases hs : s = tokNext
      · simp [acceptStep, hs, TlsPc.state?, pinNewCalls, pinNextCalls]
      · simp [acceptStep, hs, TlsPc.state?, pinNewCalls, pinNextCalls]

/-- The rotation body calls `pinState.next` once and keeps the invariant. -/
theorem rotateStep_facts {E : Ext} (st st0 : TlsState E) (hk : st.keeps st0) :
    pinNewCalls (rotateStep st).2 = [] ∧
    pinNextCalls (rotateStep st).2 = [st0.targetHash] ∧
    ∀ st1, (rotateStep st).1.state? = some st1 → st1.keeps st0 := by
  obtain ⟨h1, h2, h3, h4, h5⟩ := hk
  cases hx : E.NewTackExtension [(E.pinNext st.pinState st.targetHash).2] 1 with
  | error err =>
    rw [rotateStep_error st err hx, ← h2]
    refine ⟨rfl, rfl, ?_⟩
    intro st1 hst1
    exact absurd hst1 (by simp [TlsPc.state?])
  | ok ext =>
    rw [rotateStep_ok st ext hx, ← h2]
    refine ⟨rfl, rfl, ?_⟩
    intro st1 hst1
    simp only [TlsPc.state?, Option.some.injEq] at hst1
    subst hst1
    exact ⟨h1, h2, h3, by simp [h1], by simp [h1, h3]⟩

/-- The set-up establishes the invariant. -/
theorem initSys_inv {E : Ext} (su : Startup E) (st0 : TlsState E)
    (hinit : (tlsServerInit E su).1 = TlsPc.accepting st0) : (initSys E su).inv st0 := by
  unfold tlsServerInit at hinit
  unfold Sys.inv initSys nextCount tlsServerInit
  cases h1 : su.keyPair with
  | error e => rw [h1] at hinit; exact absurd hinit (by simp)
  | ok cert =>
    cases h2 : su.spkiHash with
    | error e => rw [h1, h2] at hinit; exact absurd hinit (by simp)
    | ok targetHash =>
      cases h3 : E.NewTackExtension [(E.pinNew E.NewPinState targetHash).2] 1 with
      | error e => rw [h1, h2] at hinit; simp only [h3] at hinit; exact absurd hinit (by simp)
      | ok tackExt =>
        cases h4 : su.listenTCP with
        | error e =>
          rw [h1, h2] at hinit; simp only [h3, h4] at hinit; exact absurd hinit (by simp)
        | ok tcpListener =>
          rw [h1, h2] at hinit
          simp only [h3, h4, TlsPc.accepting.injEq] at hinit
          subst hinit
          simp only [h3]
          refine ⟨rfl, rfl, ?_⟩
          intro st hst
          simp only [TlsPc.state?, Option.some.injEq] at hst
          subst hst
          exact ⟨rfl, rfl, rfl, rfl, rfl⟩

theorem inv_congr {E : Ext} (s s1 : Sys E) (st0 : TlsState E) (h1 : s1.tls = s.tls)
    (h2 : s1.trace = s.trace) (hinv : s.inv st0) : s1.inv st0 := by
  unfold Sys.inv nextCount at *
  rw [h1, h2]
  exact hinv

theorem inv_accept {E : Ext} (s s1 : Sys E) (st0 st : TlsState E)
    (acc : Except E.Error E.Conn) (pending : Option GoString)
    (htls : s.tls = TlsPc.accepting st)
    (h1 : s1.tls = (acceptStep st acc pending).1)
    (h2 : s1.trace = s.trace ++ (acceptStep st acc pending).2)
    (hinv : s.inv st0) : s1.inv st0 := by
  obtain ⟨a, b, c⟩ := acceptStep_facts st acc pending
  unfold Sys.inv nextCount at *
  obtain ⟨i1, i2, i3⟩ := hinv
  rw [h1, h2, pinNewCalls_append, pinNextCalls_append, b, c, List.append_nil, List.append_nil]
  refine ⟨i1, i2, ?_⟩
  intro st1 hst1
  rw [a] at hst1
  simp only [Option.some.injEq] at hst1
  subst hst1
  exact i3 st (by rw [htls]; rfl)

theorem inv_rotate {E : Ext} (s s1 : Sys E) (st0 st : TlsState E)
    (htls : s.tls = TlsPc.rotating st)
    (h1 : s1.tls = (rotateStep st).1)
    (h2 : s1.trace = s.trace ++ (rotateStep st).2)
    (hinv : s.inv st0) : s1.inv st0 := by
  unfold Sys.inv nextCount at *
  obtain ⟨i1, i2, i3⟩ := hinv
  obtain ⟨a, b, c⟩ := rotateStep_facts st st0 (i3 st (by rw [htls]; rfl))
  rw [h1, h2, pinNewCalls_append, pinNextCalls_append, a, b, List.append_nil]
  refine ⟨i1, ?_, c⟩
  rw [i2]
  simp [List.replicate_succ']

theorem inv_ack {E : Ext} (s s1 : Sys E) (st0 st : TlsState E)
    (htls : s.tls = TlsPc.sendingDone st)
    (h1 : s1.tls = TlsPc.accepting st)
    (h2 : s1.trace = s.trace ++ [Event.chanSend tokDone])
    (hinv : s.inv st0) : s1.inv st0 := by
  unfold Sys.inv nextCount at *
  obtain ⟨i1, i2, i3⟩ := hinv
  rw [h1, h2, pinNewCalls_append, pinNextCalls_append]
  simp only [pinNewCalls, pinNextCalls, List.append_nil]
  refine ⟨i1, i2, ?_⟩
  intro st1 hst1
  simp only [TlsPc.state?, Option.some.injEq] at hst1
  subst hst1
  exact i3 st (by rw [htls]; rfl)

/-- Every transition keeps the invariant. -/
theorem step_inv {E : Ext} (s s1 : Sys E) (c : Choice E) (st0 : TlsState E)
    (hinv : s.inv st0) (h : step s c = some s1) : s1.inv st0 := by
  obtain ⟨-, hc⟩ := step_some s s1 c h
  cases c with
  | request path =>
    simp only [stepRequest, Option.some.injEq] at hc
    subst hc
    exact inv_congr s _ st0 rfl rfl hinv
  | accept acc sender =>
    obtain ⟨st, htls, hcase⟩ := stepAccept_some s s1 acc sender hc
    rcases hcase with ⟨-, rfl⟩ | ⟨i, p, tok, rest, -, -, -, ⟨c, -, rfl⟩ | ⟨e, -, rfl⟩⟩
    · exact inv_accept s _ st0 st acc none htls rfl rfl hinv
    · exact inv_accept s _ st0 st acc (some tok) htls rfl rfl hinv
    · exact inv_accept s _ st0 st acc (some tok) htls rfl rfl hinv
  | rotate =>
    obtain ⟨st, htls, rfl⟩ := stepRotate_some s s1 hc
    exact inv_rotate s _ st0 st htls rfl rfl hinv
  | ack i =>
    obtain ⟨st, p, rest, htls, -, -, rfl⟩ := stepAck_some s s1 i hc
    exact inv_ack s _ st0 st htls rfl rfl hinv
  | relay i j =>
    obtain ⟨p, q, tok, rest, rest2, -, -, -, -, rfl⟩ := stepRelay_some s s1 i j hc
    exact inv_congr s _ st0 rfl rfl hinv
  | run i =>
    obtain ⟨p, rest, -, ⟨-, rfl⟩ | ⟨body, -, rfl⟩⟩ := stepRun_some s s1 i hc
    · exact inv_congr s _ st0 rfl rfl hinv
    · exact inv_congr s _ st0 rfl rfl hinv

/-- Every run keeps the invariant. -/
theorem run_inv {E : Ext} (sched : List (Choice E)) (s s1 : Sys E) (st0 : TlsState E)
    (hinv : s.inv st0) (h : run s sched = some s1) : s1.inv st0 := by
  induction sched generalizing s with
  | nil =>
    simp only [run, Option.some.injEq] at h
    subst h
    exact hinv
  | cons c cs ih =>
    simp only [run] at h
    cases hs : step s c with
    | none => rw [hs] at h; exact absurd h (by simp)
    | some s2 =>
      rw [hs] at h
      exact ih s2 (step_inv s s2 c st0 hinv hs) h

/-! ## The claims about the loop in a running process -/

/-- C7: at the loop head of any state the process can reach, an iteration
that receives `"next"` and builds the payload calls `pinState.next` once, with
the target hash that the one `pinState.new` call of the run received; the new
configuration holds the certificates of the previous one and the extension
built from exactly the returned record; the new listener wraps the TCP
listener the previous one wrapped; one `"done"` is sent, after the listener was
built; certificate, target hash and TCP listener are as at loop entry. -/
theorem rotation_iteration {E : Ext} (su : Startup E) (sched : List (Choice E)) (s : Sys E)
    (st0 st : TlsState E) (e : E.Error) (ext : E.TackExtension)
    (hinit : (tlsServerInit E su).1 = TlsPc.accepting st0)
    (hrun : run (initSys E su) sched = some s)
    (htls : s.tls = TlsPc.accepting st)
    (hext : E.NewTackExtension [(E.pinNext st.pinState st.targetHash).2] 1 = .ok ext) :
    pinNewCalls s.trace = [st.targetHash] ∧
    loopIteration st (.error e) (some tokNext)
      = (TlsPc.accepting
          { cert := st.cert, targetHash := st.targetHash,
            pinState := (E.pinNext st.pinState st.targetHash).1,
            t := (E.pinNext st.pinState st.targetHash).2,
            tackExt := ext,
            config := { Certificates := st.config.Certificates, TackExtension := some ext },
            tcpListener := st.tcpListener,
            tlsListener :=
              { inner := st.tlsListener.inner,
                config := { Certificates := st.config.Certificates,
                            TackExtension := some ext } } },
         [Event.setDeadline, Event.accept (.error e), Event.chanPoll (some tokNext),
          Event.logStderr tokNext,
          Event.pinNext st.targetHash,
          Event.newTackExtension [(E.pinNext st.pinState st.targetHash).2] 1,
          Event.newListener
            { inner := st.tlsListener.inner,
              config := { Certificates := st.config.Certificates,
                          TackExtension := some ext } },
          Event.chanSend tokDone]) ∧
    pinNextCalls (loopIteration st (.error e) (some tokNext)).2 = [st.targetHash] ∧
    (loopIteration st (.error e) (some tokNext)).2.countP Event.isChanSend = 1 ∧
    (loopIteration st (.error e) (some tokNext)).2.countP Event.isNewListener = 1 ∧
    st.cert = st0.cert ∧ st.targetHash = st0.targetHash ∧ st.tcpListener = st0.tcpListener ∧
    st.tlsListener.inner = st.tcpListener := by
  obtain ⟨i1, -, i3⟩ := run_inv sched _ s st0 (initSys_inv su st0 hinit) hrun
  obtain ⟨k1, k2, k3, k4, k5⟩ := i3 st (by rw [htls]; rfl)
  have hcert : st.config.Certificates = [st.cert] := by rw [k4, k1]
  have hinner : st.tlsListener.inner = st.tcpListener := by rw [k5, k3]
  have h := loopIteration_rotation st e ext hcert hinner hext
  refine ⟨by rw [i1, k2], h, ?_, ?_, ?_, k1, k2, k3, hinner⟩
  · rw [h]; rfl
  · rw [h]; rfl
  · rw [h]; rfl

/-- The first rotation after set-up, under `specExt`. -/
theorem rotation_iteration_witness :
    pinNewCalls (initSys (specExt 5) (goodStartup 5)).trace = [[1, 2, 3]] ∧
    pinNextCalls (loopIteration (demoState 5) (.error ()) (some tokNext)).2 = [[1, 2, 3]] ∧
    (loopIteration (demoState 5) (.error ()) (some tokNext)).2.countP Event.isChanSend = 1 :=
  have h := rotation_iteration (goodStartup 5) [] (initSys (specExt 5) (goodStartup 5))
    (demoState 5) (demoState 5) () [{ target := [1, 2, 3], generation := 2 }] rfl rfl rfl rfl
  ⟨h.1, h.2.2.1, h.2.2.2.1⟩

/-- The failing rotation from any state: `tlsServer` panics after the
`pinState.next` call, having built no listener and sent nothing; the
transition leaves every handler as it was, and from the state it reaches no
transition is enabled. -/
theorem rotateStep_failure_effects {E : Ext} (s : Sys E) (st : TlsState E) (e err : E.Error)
    (htls : s.tls = TlsPc.rotating st)
    (hext : E.NewTackExtension [(E.pinNext st.pinState st.targetHash).2] 1 = .error err) :
    rotateStep st
      = (TlsPc.dead,
         [Event.pinNext st.targetHash,
          Event.newTackExtension [(E.pinNext st.pinState st.targetHash).2] 1,
          Event.fatal]) ∧
    loopIteration st (.error e) (some tokNext)
      = (TlsPc.dead,
         [Event.setDeadline, Event.accept (.error e), Event.chanPoll (some tokNext),
          Event.logStderr tokNext,
          Event.pinNext st.targetHash,
          Event.newTackExtension [(E.pinNext st.pinState st.targetHash).2] 1,
          Event.fatal]) ∧
    (loopIteration st (.error e) (some tokNext)).2.countP Event.isChanSend = 0 ∧
    (loopIteration st (.error e) (some tokNext)).2.countP Event.isNewListener = 0 ∧
    step s Choice.rotate
      = some { tls := TlsPc.dead, handlers := s.handlers,
               trace := s.trace ++ [Event.pinNext st.targetHash,
                 Event.newTackExtension [(E.pinNext st.pinState st.targetHash).2] 1,
                 Event.fatal] } ∧
    (∀ (c : Choice E) (hs : List Proc) (tr : List (Event E)),
      step { tls := TlsPc.dead, handlers := hs, trace := tr } c = none) ∧
    (∀ (sched : List (Choice E)) (hs : List Proc) (tr : List (Event E)) (s2 : Sys E),
      run { tls := TlsPc.dead, handlers := hs, trace := tr } sched = some s2 →
      sched = [] ∧ s2.handlers = hs ∧ okCount s2 = total okOf hs) := by
  have h1 := rotateStep_error st err hext
  have h2 : loopIteration st (.error e) (some tokNext)
      = (TlsPc.dead,
         [Event.setDeadline, Event.accept (.error e), Event.chanPoll (some tokNext),
          Event.logStderr tokNext,
          Event.pinNext st.targetHash,
          Event.newTackExtension [(E.pinNext st.pinState st.targetHash).2] 1,
          Event.fatal]) := by
    rw [loopIteration_next, h1]
    rfl
  refine ⟨h1, h2, ?_, ?_, ?_, ?_, ?_⟩
  · rw [h2]; rfl
  · rw [h2]; rfl
  · simp only [step, htls, TlsPc.isDead, stepRotate, h1]
    rfl
  · intro c hs tr
    rfl
  · intro sched hs tr s2 hrun
    cases sched with
    | nil =>
      simp only [run, Option.some.injEq] at hrun
      subst hrun
      exact ⟨rfl, rfl, rfl⟩
    | cons c cs =>
      exact absurd hrun (by simp [run, step, TlsPc.isDead])

/-! ## Counting handlers -/

theorem total_append (f : Proc → Nat) (l : List Proc) (p : Proc) :
    total f (l ++ [p]) = total f l + f p := by
  simp [total]

theorem total_set (f : Proc → Nat) (l : List Proc) (i : Nat) (p q : Proc)
    (h : l[i]? = some p) : total f (l.set i q) + f p = total f l + f q := by
  induction l generalizing i with
  | nil => simp at h
  | cons a l ih =>
    cases i with
    | zero =>
      simp only [List.getElem?_cons_zero, Option.some.injEq] at h
      subst h
      simp only [total, List.set_cons_zero, List.map_cons, List.sum_cons]
      omega
    | succ n =>
      simp only [List.getElem?_cons_succ] at h
      have := ih n h
      simp only [total, List.set_cons_succ, List.map_cons, List.sum_cons] at this ⊢
      omega

theorem total_ge (f : Proc → Nat) (l : List Proc) (i : Nat) (p : Proc)
    (h : l[i]? = some p) : f p ≤ total f l := by
  have := total_set f l i p p h
  induction l generalizing i with
  | nil => simp at h
  | cons a l ih =>
    cases i with
    | zero =>
      simp only [List.getElem?_cons_zero, Option.some.injEq] at h
      subst h
      simp only [total, List.map_cons, List.sum_cons]
      omega
    | succ n =>
      simp only [List.getElem?_cons_succ] at h
      have h2 := ih n h (total_set f l n p p h)
      simp only [total, List.map_cons, List.sum_cons] at h2 ⊢
      omega

theorem total_eq_zero (f : Proc → Nat) (l : List Proc) (h : ∀ p ∈ l, f p = 0) :
    total f l = 0 := by
  induction l with
  | nil => rfl
  | cons a l ih =>
    simp only [total, List.map_cons, List.sum_cons]
    have h1 := h a (List.mem_cons_self a l)
    have h2 := ih (fun p hp => h p (List.mem_cons_of_mem a hp))
    simp only [total] at h2
    omega

/-- The shapes a valid handler can have. -/
theorem validProc_cases (p : Proc) (h : ValidProc p) :
    (p.code = nextBranch ∧ p.out = []) ∨
    (p.code = [Stmt.chanRecvS, Stmt.logS, Stmt.write okNext] ∧ p.out = []) ∨
    (p.code = [Stmt.logS, Stmt.write okNext] ∧ p.out = [] ∧ p.s = tokDone) ∨
    (p.code = [Stmt.write okNext] ∧ p.out = [] ∧ p.s = tokDone) ∨
    (p.code = [] ∧ p.out = [okNext] ∧ p.s = tokDone) := by
  obtain ⟨k, hk, hc, ho, hs⟩ := h
  interval_cases k
  · exact Or.inl ⟨hc, ho⟩
  · exact Or.inr (Or.inl ⟨hc, ho⟩)
  · exact Or.inr (Or.inr (Or.inl ⟨hc, ho, hs (by omega)⟩))
  · exact Or.inr (Or.inr (Or.inr (Or.inl ⟨hc, ho, hs (by omega)⟩)))
  · exact Or.inr (Or.inr (Or.inr (Or.inr ⟨hc, ho, hs (by omega)⟩)))

/-- The effect on the five counts of replacing handler `i`, which had `n`
statements left and `a` responses written, by one with `m` and `b`. -/
theorem set_totals (l : List Proc) (i : Nat) (p q : Proc) (n m a b : Nat)
    (h : l[i]? = some p) (hn : p.code.length = n) (hm : q.code.length = m)
    (ha : okOf p = a) (hb : okOf q = b) :
    total (stageIs 4) (l.set i q) + (if n = 4 then 1 else 0)
      = total (stageIs 4) l + (if m = 4 then 1 else 0) ∧
    total (stageIs 3) (l.set i q) + (if n = 3 then 1 else 0)
      = total (stageIs 3) l + (if m = 3 then 1 else 0) ∧
    total (stageIs 2) (l.set i q) + (if n = 2 then 1 else 0)
      = total (stageIs 2) l + (if m = 2 then 1 else 0) ∧
    total (stageIs 1) (l.set i q) + (if n = 1 then 1 else 0)
      = total (stageIs 1) l + (if m = 1 then 1 else 0) ∧
    total okOf (l.set i q) + a = total okOf l + b := by
  have e : ∀ k, total (stageIs k) (l.set i q) + (if n = k then 1 else 0)
      = total (stageIs k) l + (if m = k then 1 else 0) := by
    intro k
    have := total_set (stageIs k) l i p q h
    simp only [stageIs, hn, hm] at this
    exact this
  have e0 := total_set okOf l i p q h
  rw [ha, hb] at e0
  exact ⟨e 4, e 3, e 2, e 1, e0⟩

theorem valid_set (l : List Proc) (i : Nat) (q : Proc) (hl : ∀ p ∈ l, ValidProc p)
    (hq : ValidProc q) : ∀ p ∈ l.set i q, ValidProc p := by
  intro p hp
  rcases List.mem_or_eq_of_mem_set hp with h | h
  · exact hl p h
  · rw [h]; exact hq

/-- The invariant depends on the handlers, the control point and the number
of `pinState.next` calls only. -/
theorem seqInv_same_handlers {E : Ext} (s s1 : Sys E) (hh : s1.handlers = s.handlers)
    (hn : nextCount s1 = nextCount s)
    (hrel : ∀ b c ok nx, tlsRel s.tls b c ok nx → tlsRel s1.tls b c ok nx)
    (hinv : s.seqInv) : s1.seqInv := by
  unfold Sys.seqInv okCount at *
  rw [hh, hn]
  exact ⟨hinv.1, hinv.2.1, hinv.2.2.1, hrel _ _ _ _ hinv.2.2.2⟩

theorem nextCount_append_accept {E : Ext} (tr : List (Event E)) (st : TlsState E)
    (acc : Except E.Error E.Conn) (pending : Option GoString) :
    (pinNextCalls (tr ++ (acceptStep st acc pending).2)).length = (pinNextCalls tr).length := by
  rw [pinNextCalls_append, (acceptStep_facts st acc pending).2.2, List.append_nil]

theorem acceptStep_pc_ok {E : Ext} (st : TlsState E) (c : E.Conn)
    (pending : Option GoString) : (acceptStep st (.ok c) pending).1 = TlsPc.accepting st := rfl

theorem acceptStep_pc_none {E : Ext} (st : TlsState E) (acc : Except E.Error E.Conn) :
    (acceptStep st acc none).1 = TlsPc.accepting st := by
  cases acc <;> rfl

theorem acceptStep_pc_tok {E : Ext} (st : TlsState E) (e : E.Error) (tok : GoString) :
    (acceptStep st (.error e) (some tok)).1
      = if tok = tokNext then TlsPc.rotating st else TlsPc.accepting st := rfl

/-- A handler that has returned is in none of the four running stages. -/
theorem totals_of_allReturned {E : Ext} (s : Sys E) (h : allReturned s = true) (n : Nat) :
    total (stageIs (n + 1)) s.handlers = 0 := by
  apply total_eq_zero
  intro p hp
  simp only [allReturned, List.all_eq_true, List.isEmpty_iff] at h
  simp [stageIs, h p hp]

theorem valid_send (p : Proc) (tok : GoString) (rest : List Stmt) (hv : ValidProc p)
    (hc : p.code = Stmt.chanSend tok :: rest) :
    tok = tokNext ∧ rest = [Stmt.chanRecvS, Stmt.logS, Stmt.write okNext] ∧ p.out = [] := by
  rcases validProc_cases p hv with ⟨h, ho⟩ | ⟨h, ho⟩ | ⟨h, ho, -⟩ | ⟨h, ho, -⟩ | ⟨h, ho, -⟩ <;>
    rw [hc] at h <;> simp [nextBranch] at h
  exact ⟨h.1, h.2, ho⟩

theorem valid_recv (p : Proc) (rest : List Stmt) (hv : ValidProc p)
    (hc : p.code = Stmt.chanRecvS :: rest) :
    rest = [Stmt.logS, Stmt.write okNext] ∧ p.out = [] := by
  rcases validProc_cases p hv with ⟨h, ho⟩ | ⟨h, ho⟩ | ⟨h, ho, -⟩ | ⟨h, ho, -⟩ | ⟨h, ho, -⟩ <;>
    rw [hc] at h <;> simp [nextBranch] at h
  exact ⟨h, ho⟩

theorem valid_log (p : Proc) (rest : List Stmt) (hv : ValidProc p)
    (hc : p.code = Stmt.logS :: rest) :
    rest = [Stmt.write okNext] ∧ p.out = [] ∧ p.s = tokDone := by
  rcases validProc_cases p hv with ⟨h, ho⟩ | ⟨h, ho⟩ | ⟨h, ho, hs⟩ | ⟨h, ho, hs⟩ | ⟨h, ho, hs⟩ <;>
    rw [hc] at h <;> simp [nextBranch] at h
  exact ⟨h, ho, hs⟩

theorem valid_write (p : Proc) (body : GoString) (rest : List Stmt) (hv : ValidProc p)
    (hc : p.code = Stmt.write body :: rest) :
    body = okNext ∧ rest = [] ∧ p.out = [] ∧ p.s = tokDone := by
  rcases validProc_cases p hv with ⟨h, ho⟩ | ⟨h, ho⟩ | ⟨h, ho, hs⟩ | ⟨h, ho, hs⟩ | ⟨h, ho, hs⟩ <;>
    rw [hc] at h <;> simp [nextBranch] at h
  exact ⟨h.1, h.2, ho, hs⟩

/-- Every transition of a strictly sequential run keeps `seqInv`. -/
theorem seqStep_seqInv {E : Ext} (s s1 : Sys E) (c : Choice E) (hinv : s.seqInv)
    (h : seqStep s c = some s1) : s1.seqInv := by
  unfold seqStep at h
  cases hal : seqAllowed s c with
  | false => rw [hal] at h; exact absurd h (by simp)
  | true =>
    rw [hal] at h
    simp only [if_true] at h
    obtain ⟨-, hc⟩ := step_some s s1 c h
    cases c with
    | request path =>
      simp only [stepRequest, Option.some.injEq] at hc
      subst hc
      simp only [seqAllowed, Bool.and_eq_true, decide_eq_true_eq] at hal
      obtain ⟨hpath, hret⟩ := hal
      subst hpath
      have z4 : total (stageIs 4) s.handlers = 0 := totals_of_allReturned s hret 3
      have z3 : total (stageIs 3) s.handlers = 0 := totals_of_allReturned s hret 2
      have z2 : total (stageIs 2) s.handlers = 0 := totals_of_allReturned s hret 1
      have z1 : total (stageIs 1) s.handlers = 0 := totals_of_allReturned s hret 0
      have hsp : spawn slashNext = { code := nextBranch, s := [], out := [] } := by decide
      unfold Sys.seqInv okCount nextCount at hinv ⊢
      obtain ⟨hv, hle, hlen, hrel⟩ := hinv
      simp only [total_append, List.length_append, List.length_singleton, hsp]
      have e4 : stageIs 4 { code := nextBranch, s := [], out := [] } = 1 := by decide
      have e3 : stageIs 3 { code := nextBranch, s := [], out := [] } = 0 := by decide
      have e2 : stageIs 2 { code := nextBranch, s := [], out := [] } = 0 := by decide
      have e1 : stageIs 1 { code := nextBranch, s := [], out := [] } = 0 := by decide
      have e0 : okOf { code := nextBranch, s := [], out := [] } = 0 := by decide
      rw [e4, e3, e2, e1, e0]
      refine ⟨?_, by omega, by omega, ?_⟩
      · intro p hp
        rcases List.mem_append.mp hp with h1 | h1
        · exact hv p h1
        · simp only [List.mem_singleton] at h1
          rw [h1]
          exact ⟨0, by omega, rfl, rfl, fun h => absurd h (by omega)⟩
      · simpa [z3, z2, z1] using hrel
    | accept acc sender =>
      obtain ⟨st, htls, hcase⟩ := stepAccept_some s s1 acc sender hc
      rcases hcase with ⟨-, rfl⟩ | ⟨i, p, tok, rest, -, hp, hcode, ⟨c, hacc, rfl⟩ | ⟨e, hacc, rfl⟩⟩
      · refine seqInv_same_handlers s _ rfl (by
          simp only [nextCount]; exact nextCount_append_accept _ _ _ _) ?_ hinv
        intro b c ok nx hr
        rw [htls] at hr
        rw [acceptStep_pc_none]
        exact hr
      · refine seqInv_same_handlers s _ rfl (by
          simp only [nextCount]; exact nextCount_append_accept _ _ _ _) ?_ hinv
        intro b c ok nx hr
        rw [htls] at hr
        rw [hacc, acceptStep_pc_ok]
        exact hr
      · unfold Sys.seqInv okCount nextCount at hinv ⊢
        obtain ⟨hv, hle, hlen, hrel⟩ := hinv
        obtain ⟨htok, hrest, hout⟩ := valid_send p tok rest (hv p (List.getElem?_mem hp)) hcode
        subst htok
        subst hrest
        obtain ⟨t4, t3, t2, t1, t0⟩ := set_totals s.handlers i p
          { p with code := [Stmt.chanRecvS, Stmt.logS, Stmt.write okNext] } 4 3 0 0 hp
          (by rw [hcode]; rfl) rfl (by simp [okOf, hout]) (by simp [okOf, hout])
        simp only [Nat.reduceEqDiff, if_true, if_false] at t4 t3 t2 t1
        rw [htls] at hrel
        simp only [tlsRel] at hrel
        simp only [List.length_set, nextCount_append_accept]
        refine ⟨valid_set _ _ _ hv ⟨1, by omega, rfl, hout, fun h => absurd h (by omega)⟩, by omega, by omega, ?_⟩
        rw [hacc, acceptStep_pc_tok, if_pos rfl]
        simp only [tlsRel]
        omega
    | rotate =>
      obtain ⟨st, htls, rfl⟩ := stepRotate_some s s1 hc
      unfold Sys.seqInv okCount nextCount at hinv ⊢
      obtain ⟨hv, hle, hlen, hrel⟩ := hinv
      rw [htls] at hrel
      simp only [tlsRel] at hrel
      have hn : (pinNextCalls (s.trace ++ (rotateStep st).2)).length
          = (pinNextCalls s.trace).length + 1 := by
        rw [pinNextCalls_append]
        cases hx : E.NewTackExtension [(E.pinNext st.pinState st.targetHash).2] 1 with
        | error err => rw [rotateStep_error st err hx]; simp [pinNextCalls]
        | ok ext => rw [rotateStep_ok st ext hx]; simp [pinNextCalls]
      simp only [hn]
      refine ⟨hv, hle, hlen, ?_⟩
      cases hx : E.NewTackExtension [(E.pinNext st.pinState st.targetHash).2] 1 with
      | error err =>
        rw [rotateStep_error st err hx]
        simp only [tlsRel]
        omega
      | ok ext =>
        rw [rotateStep_ok st ext hx]
        simp only [tlsRel]
        omega
    | ack i =>
      obtain ⟨st, p, rest, htls, hp, hcode, rfl⟩ := stepAck_some s s1 i hc
      unfold Sys.seqInv okCount nextCount at hinv ⊢
      obtain ⟨hv, hle, hlen, hrel⟩ := hinv
      obtain ⟨hrest, hout⟩ := valid_recv p rest (hv p (List.getElem?_mem hp)) hcode
      subst hrest
      obtain ⟨t4, t3, t2, t1, t0⟩ := set_totals s.handlers i p
        { p with code := [Stmt.logS, Stmt.write okNext], s := tokDone } 3 2 0 0 hp
        (by rw [hcode]; rfl) rfl (by simp [okOf, hout]) (by simp [okOf, hout])
      simp only [Nat.reduceEqDiff, if_true, if_false] at t4 t3 t2 t1
      rw [htls] at hrel
      simp only [tlsRel] at hrel
      have hn : (pinNextCalls (s.trace ++ [Event.chanSend tokDone])).length
          = (pinNextCalls s.trace).length := by
        rw [pinNextCalls_append]; simp [pinNextCalls]
      simp only [List.length_set, hn]
      refine ⟨valid_set _ _ _ hv ⟨2, by omega, rfl, hout, fun _ => rfl⟩, by omega, by omega, ?_⟩
      simp only [tlsRel]
      omega
    | relay i j =>
      obtain ⟨p, q, tok, rest, rest2, hp, hq, hcp, hcq, rfl⟩ := stepRelay_some s s1 i j hc
      exfalso
      unfold Sys.seqInv at hinv
      obtain ⟨hv, hle, -, -⟩ := hinv
      obtain ⟨-, hrest, -⟩ := valid_send p tok rest (hv p (List.getElem?_mem hp)) hcp
      obtain ⟨hrest2, -⟩ := valid_recv q rest2 (hv q (List.getElem?_mem hq)) hcq
      have g4 := total_ge (stageIs 4) s.handlers i p hp
      have g3 := total_ge (stageIs 3) s.handlers j q hq
      have a4 : stageIs 4 p = 1 := by simp [stageIs, hcp, hrest]
      have a3 : stageIs 3 q = 1 := by simp [stageIs, hcq, hrest2]
      omega
    | run i =>
      obtain ⟨p, rest, hp, ⟨hcode, rfl⟩ | ⟨body, hcode, rfl⟩⟩ := stepRun_some s s1 i hc
      · unfold Sys.seqInv okCount nextCount at hinv ⊢
        obtain ⟨hv, hle, hlen, hrel⟩ := hinv
        obtain ⟨hrest, hout, hsd⟩ := valid_log p rest (hv p (List.getElem?_mem hp)) hcode
        subst hrest
        obtain ⟨t4, t3, t2, t1, t0⟩ := set_totals s.handlers i p
          { p with code := [Stmt.write okNext] } 2 1 0 0 hp
          (by rw [hcode]; rfl) rfl (by simp [okOf, hout]) (by simp [okOf, hout])
        simp only [Nat.reduceEqDiff, if_true, if_false] at t4 t3 t2 t1
        simp only [List.length_set]
        have e3 : total (stageIs 3) (s.handlers.set i { p with code := [Stmt.write okNext] })
            = total (stageIs 3) s.handlers := by omega
        have e21 : total (stageIs 2) (s.handlers.set i { p with code := [Stmt.write okNext] })
            + total (stageIs 1) (s.handlers.set i { p with code := [Stmt.write okNext] })
            = total (stageIs 2) s.handlers + total (stageIs 1) s.handlers := by omega
        have e0 : total okOf (s.handlers.set i { p with code := [Stmt.write okNext] })
            = total okOf s.handlers := by omega
        refine ⟨valid_set _ _ _ hv ⟨3, by omega, rfl, hout, fun _ => hsd⟩, by omega, by omega, ?_⟩
        rw [e3, e21, e0]
        exact hrel
      · unfold Sys.seqInv okCount nextCount at hinv ⊢
        obtain ⟨hv, hle, hlen, hrel⟩ := hinv
        obtain ⟨hbody, hrest, hout, hsd⟩ := valid_write p body rest (hv p (List.getElem?_mem hp)) hcode
        subst hbody
        subst hrest
        obtain ⟨t4, t3, t2, t1, t0⟩ := set_totals s.handlers i p
          { p with code := [], out := p.out ++ [okNext] } 1 0 0 1 hp
          (by rw [hcode]; rfl) rfl (by simp [okOf, hout]) (by simp [okOf, hout])
        simp only [Nat.reduceEqDiff, if_true, if_false] at t4 t3 t2 t1
        simp only [List.length_set]
        refine ⟨valid_set _ _ _ hv ⟨4, by omega, rfl, by simp [hout], fun _ => hsd⟩, by omega, by omega, ?_⟩
        cases htls : s.tls with
        | accepting st =>
          rw [htls] at hrel
          simp only [tlsRel] at hrel ⊢
          omega
        | rotating st =>
          rw [htls] at hrel
          simp only [tlsRel] at hrel ⊢
          omega
        | sendingDone st =>
          rw [htls] at hrel
          simp only [tlsRel] at hrel ⊢
          omega
        | dead =>
          rw [htls] at hrel
          simp only [tlsRel] at hrel ⊢
          omega

/-- What a transition does to `tlsServer` and to the trace. -/
theorem step_tls {E : Ext} (s s1 : Sys E) (c : Choice E) (h : step s c = some s1) :
    (s1.tls = s.tls ∧ s1.trace = s.trace) ∨
    (∃ st acc pending, s.tls = TlsPc.accepting st ∧
      s1.tls = (acceptStep st acc pending).1 ∧
      s1.trace = s.trace ++ (acceptStep st acc pending).2) ∨
    (∃ st, s.tls = TlsPc.rotating st ∧ s1.tls = (rotateStep st).1 ∧
      s1.trace = s.trace ++ (rotateStep st).2) ∨
    (∃ st, s.tls = TlsPc.sendingDone st ∧ s1.tls = TlsPc.accepting st ∧
      s1.trace = s.trace ++ [Event.chanSend tokDone]) := by
  obtain ⟨-, hc⟩ := step_some s s1 c h
  cases c with
  | request path =>
    simp only [stepRequest, Option.some.injEq] at hc
    subst hc
    exact Or.inl ⟨rfl, rfl⟩
  | accept acc sender =>
    obtain ⟨st, htls, hcase⟩ := stepAccept_some s s1 acc sender hc
    rcases hcase with ⟨-, rfl⟩ | ⟨i, p, tok, rest, -, -, -, ⟨c, -, rfl⟩ | ⟨e, -, rfl⟩⟩
    · exact Or.inr (Or.inl ⟨st, acc, none, htls, rfl, rfl⟩)
    · exact Or.inr (Or.inl ⟨st, acc, some tok, htls, rfl, rfl⟩)
    · exact Or.inr (Or.inl ⟨st, acc, some tok, htls, rfl, rfl⟩)
  | rotate =>
    obtain ⟨st, htls, rfl⟩ := stepRotate_some s s1 hc
    exact Or.inr (Or.inr (Or.inl ⟨st, htls, rfl, rfl⟩))
  | ack i =>
    obtain ⟨st, p, rest, htls, -, -, rfl⟩ := stepAck_some s s1 i hc
    exact Or.inr (Or.inr (Or.inr ⟨st, htls, rfl, rfl⟩))
  | relay i j =>
    obtain ⟨p, q, tok, rest, rest2, -, -, -, -, rfl⟩ := stepRelay_some s s1 i j hc
    exact Or.inl ⟨rfl, rfl⟩
  | run i =>
    obtain ⟨p, rest, -, ⟨-, rfl⟩ | ⟨body, -, rfl⟩⟩ := stepRun_some s s1 i hc
    · exact Or.inl ⟨rfl, rfl⟩
    · exact Or.inl ⟨rfl, rfl⟩

/-- Every transition keeps the generation invariant, for a generator whose
`next` adds 1. -/
theorem step_genInv {E : Ext} (gen : E.Tack → Nat) (cur : E.PinState → Nat)
    (hnext : ∀ ps h, gen (E.pinNext ps h).2 = cur ps + 1 ∧ cur (E.pinNext ps h).1 = cur ps + 1)
    (s s1 : Sys E) (c : Choice E) (hinv : s.genInv gen cur) (h : step s c = some s1) :
    s1.genInv gen cur := by
  unfold Sys.genInv nextCount at hinv ⊢
  rcases step_tls s s1 c h with ⟨h1, h2⟩ | ⟨st, acc, pending, htls, h1, h2⟩ |
    ⟨st, htls, h1, h2⟩ | ⟨st, htls, h1, h2⟩
  · rw [h1, h2]; exact hinv
  · intro st1 hst1
    rw [h1, (acceptStep_facts st acc pending).1] at hst1
    simp only [Option.some.injEq] at hst1
    subst hst1
    rw [h2, nextCount_append_accept]
    exact hinv st (by rw [htls]; rfl)
  · intro st1 hst1
    have hst := hinv st (by rw [htls]; rfl)
    cases hx : E.NewTackExtension [(E.pinNext st.pinState st.targetHash).2] 1 with
    | error err =>
      rw [h1, rotateStep_error st err hx] at hst1
      exact absurd hst1 (by simp [TlsPc.state?])
    | ok ext =>
      rw [h1, rotateStep_ok st ext hx] at hst1
      simp only [TlsPc.state?, Option.some.injEq] at hst1
      subst hst1
      rw [h2, rotateStep_ok st ext hx, pinNextCalls_append]
      obtain ⟨g1, g2⟩ := hnext st.pinState st.targetHash
      simp only [pinNextCalls, List.length_append, List.length_singleton]
      omega
  · intro st1 hst1
    rw [h1] at hst1
    simp only [TlsPc.state?, Option.some.injEq] at hst1
    subst hst1
    rw [h2, pinNextCalls_append]
    simp only [pinNextCalls, List.append_nil]
    exact hinv st (by rw [htls]; rfl)

/-- What the set-up leaves in the local variables and in the trace. -/
theorem init_facts {E : Ext} (su : Startup E) (st0 : TlsState E)
    (hinit : (tlsServerInit E su).1 = TlsPc.accepting st0) :
    st0.t = (E.pinNew E.NewPinState st0.targetHash).2 ∧
    st0.pinState = (E.pinNew E.NewPinState st0.targetHash).1 ∧
    pinNextCalls (initSys E su).trace = [] ∧
    (initSys E su).tls = TlsPc.accepting st0 ∧ (initSys E su).handlers = [] := by
  refine ⟨?_, ?_, ?_, hinit, rfl⟩
  all_goals
    unfold tlsServerInit at hinit
    try unfold initSys tlsServerInit
    cases h1 : su.keyPair with
    | error e => rw [h1] at hinit; exact absurd hinit (by simp)
    | ok cert =>
      cases h2 : su.spkiHash with
      | error e => rw [h1, h2] at hinit; exact absurd hinit (by simp)
      | ok targetHash =>
        cases h3 : E.NewTackExtension [(E.pinNew E.NewPinState targetHash).2] 1 with
        | error e => rw [h1, h2] at hinit; simp only [h3] at hinit; exact absurd hinit (by simp)
        | ok tackExt =>
          cases h4 : su.listenTCP with
          | error e =>
            rw [h1, h2] at hinit; simp only [h3, h4] at hinit; exact absurd hinit (by simp)
          | ok tcpListener =>
            rw [h1, h2] at hinit
            simp only [h3, h4, TlsPc.accepting.injEq] at hinit
            subst hinit
            first
              | rfl
              | (simp only [h3]; rfl)

/-- A strictly sequential run is a run. -/
theorem run_of_runSeq {E : Ext} (sched : List (Choice E)) (s s1 : Sys E)
    (h : runSeq s sched = some s1) : run s sched = some s1 := by
  induction sched generalizing s with
  | nil => exact h
  | cons c cs ih =>
    simp only [runSeq] at h
    simp only [run]
    cases hs : seqStep s c with
    | none => rw [hs] at h; exact absurd h (by simp)
    | some s2 =>
      rw [hs] at h
      have hstep : step s c = some s2 := by
        unfold seqStep at hs
        cases hal : seqAllowed s c with
        | false => rw [hal] at hs; exact absurd hs (by simp)
        | true => rw [hal] at hs; simpa using hs
      rw [hstep]
      exact ih s2 h

theorem run_genInv {E : Ext} (gen : E.Tack → Nat) (cur : E.PinState → Nat)
    (hnext : ∀ ps h, gen (E.pinNext ps h).2 = cur ps + 1 ∧ cur (E.pinNext ps h).1 = cur ps + 1)
    (sched : List (Choice E)) (s s1 : Sys E) (hinv : s.genInv gen cur)
    (h : run s sched = some s1) : s1.genInv gen cur := by
  induction sched generalizing s with
  | nil =>
    simp only [run, Option.some.injEq] at h
    subst h
    exact hinv
  | cons c cs ih =>
    simp only [run] at h
    cases hs : step s c with
    | none => rw [hs] at h; exact absurd h (by simp)
    | some s2 =>
      rw [hs] at h
      exact ih s2 (step_genInv gen cur hnext s s2 c hinv hs) h

theorem runSeq_seqInv {E : Ext} (sched : List (Choice E)) (s s1 : Sys E) (hinv : s.seqInv)
    (h : runSeq s sched = some s1) : s1.seqInv := by
  induction sched generalizing s with
  | nil =>
    simp only [runSeq, Option.some.injEq] at h
    subst h
    exact hinv
  | cons c cs ih =>
    simp only [runSeq] at h
    cases hs : seqStep s c with
    | none => rw [hs] at h; exact absurd h (by simp)
    | some s2 =>
      rw [hs] at h
      exact ih s2 (seqStep_seqInv s s2 c hinv hs) h

theorem initSys_seqInv {E : Ext} (su : Startup E) (st0 : TlsState E)
    (hinit : (tlsServerInit E su).1 = TlsPc.accepting st0) : (initSys E su).seqInv := by
  obtain ⟨-, -, h3, h4, h5⟩ := init_facts su st0 hinit
  unfold Sys.seqInv okCount nextCount
  rw [h3, h4, h5]
  refine ⟨by simp, by simp [total], by simp [total], ?_⟩
  simp [tlsRel, total]

theorem initSys_genInv {E : Ext} (gen : E.Tack → Nat) (cur : E.PinState → Nat)
    (hnew : ∀ ps h, gen (E.pinNew ps h).2 = 1 ∧ cur (E.pinNew ps h).1 = 1)
    (su : Startup E) (st0 : TlsState E)
    (hinit : (tlsServerInit E su).1 = TlsPc.accepting st0) :
    (initSys E su).genInv gen cur := by
  obtain ⟨h1, h2, h3, h4, -⟩ := init_facts su st0 hinit
  unfold Sys.genInv nextCount
  rw [h3, h4]
  intro st hst
  simp only [TlsPc.state?, Option.some.injEq] at hst
  subst hst
  rw [h1, h2]
  simpa using hnew E.NewPinState st0.targetHash

/-! ## Rotations and listeners -/

/-- The set-up builds one listener. -/
theorem init_listeners {E : Ext} (su : Startup E) (st0 : TlsState E)
    (hinit : (tlsServerInit E su).1 = TlsPc.accepting st0) :
    (initSys E su).trace.countP Event.isNewListener = 1 := by
  unfold tlsServerInit at hinit
  unfold initSys tlsServerInit
  cases h1 : su.keyPair with
  | error e => rw [h1] at hinit; exact absurd hinit (by simp)
  | ok cert =>
    cases h2 : su.spkiHash with
    | error e => rw [h1, h2] at hinit; exact absurd hinit (by simp)
    | ok targetHash =>
      cases h3 : E.NewTackExtension [(E.pinNew E.NewPinState targetHash).2] 1 with
      | error e => rw [h1, h2] at hinit; simp only [h3] at hinit; exact absurd hinit (by simp)
      | ok tackExt =>
        cases h4 : su.listenTCP with
        | error e =>
          rw [h1, h2] at hinit; simp only [h3, h4] at hinit; exact absurd hinit (by simp)
        | ok tcpListener =>
          simp only [h3]
          rfl

theorem initSys_rotInv {E : Ext} (su : Startup E) (st0 : TlsState E)
    (hinit : (tlsServerInit E su).1 = TlsPc.accepting st0) : (initSys E su).rotInv := by
  obtain ⟨-, -, h3, h4, -⟩ := init_facts su st0 hinit
  unfold Sys.rotInv nextCount
  rw [init_listeners su st0 hinit, h3, h4]
  rfl

theorem acceptStep_listeners {E : Ext} (st : TlsState E) (acc : Except E.Error E.Conn)
    (pending : Option GoString) :
    (acceptStep st acc pending).2.countP Event.isNewListener = 0 ∧
    (acceptStep st acc pending).1.isDead = false := by
  cases acc with
  | ok c => exact ⟨rfl, rfl⟩
  | error e =>
    cases pending with
    | none => exact ⟨rfl, rfl⟩
    | some s =>
      by_cases hs : s = tokNext
      · simp [acceptStep, hs, TlsPc.isDead, Event.isNewListener]
      · simp [acceptStep, hs, TlsPc.isDead, Event.isNewListener]

/-- Every transition keeps `rotInv`. -/
theorem step_rotInv {E : Ext} (s s1 : Sys E) (c : Choice E) (hinv : s.rotInv)
    (h : step s c = some s1) : s1.rotInv := by
  unfold Sys.rotInv nextCount at hinv ⊢
  rcases step_tls s s1 c h with ⟨h1, h2⟩ | ⟨st, acc, pending, htls, h1, h2⟩ |
    ⟨st, htls, h1, h2⟩ | ⟨st, htls, h1, h2⟩
  · rw [h1, h2]; exact hinv
  · rw [h1, h2, nextCount_append_accept, List.countP_append,
      (acceptStep_listeners st acc pending).1, (acceptStep_listeners st acc pending).2]
    rw [htls] at hinv
    simpa [TlsPc.isDead] using hinv
  · rw [htls] at hinv
    simp only [TlsPc.isDead] at hinv
    rw [h1, h2, pinNextCalls_append, List.countP_append]
    cases hx : E.NewTackExtension [(E.pinNext st.pinState st.targetHash).2] 1 with
    | error err =>
      rw [rotateStep_error st err hx]
      simp only [pinNextCalls, List.length_append, List.length_singleton, TlsPc.isDead,
        List.countP_cons, List.countP_nil, Event.isNewListener] at hinv ⊢
      simp at hinv ⊢
      omega
    | ok ext =>
      rw [rotateStep_ok st ext hx]
      simp only [pinNextCalls, List.length_append, List.length_singleton, TlsPc.isDead,
        List.countP_cons, List.countP_nil, Event.isNewListener] at hinv ⊢
      simp at hinv ⊢
      omega
  · rw [htls] at hinv
    simp only [TlsPc.isDead] at hinv
    rw [h1, h2, pinNextCalls_append, List.countP_append]
    simp only [pinNextCalls, List.append_nil, TlsPc.isDead, List.countP_cons, List.countP_nil,
      Event.isNewListener] at hinv ⊢
    simp at hinv ⊢
    omega

theorem run_rotInv {E : Ext} (sched : List (Choice E)) (s s1 : Sys E) (hinv : s.rotInv)
    (h : run s sched = some s1) : s1.rotInv := by
  induction sched generalizing s with
  | nil =>
    simp only [run, Option.some.injEq] at h
    subst h
    exact hinv
  | cons c cs ih =>
    simp only [run] at h
    cases hs : step s c with
    | none => rw [hs] at h; exact absurd h (by simp)
    | some s2 =>
      rw [hs] at h
      exact ih s2 (step_rotInv s s2 c hinv hs) h

/-- Under `seqInv` no handler can receive what another handler sends. -/
theorem seqInv_no_relay {E : Ext} (s : Sys E) (hinv : s.seqInv) (i j : Nat) :
    step s (Choice.relay i j) = none := by
  cases h : step s (Choice.relay i j) with
  | none => rfl
  | some s1 =>
    exfalso
    obtain ⟨-, hc⟩ := step_some s s1 _ h
    obtain ⟨p, q, tok, rest, rest2, hp, hq, hcp, hcq, -⟩ := stepRelay_some s s1 i j hc
    unfold Sys.seqInv at hinv
    obtain ⟨hv, hle, -, -⟩ := hinv
    obtain ⟨-, hrest, -⟩ := valid_send p tok rest (hv p (List.getElem?_mem hp)) hcp
    obtain ⟨hrest2, -⟩ := valid_recv q rest2 (hv q (List.getElem?_mem hq)) hcq
    have g4 := total_ge (stageIs 4) s.handlers i p hp
    have g3 := total_ge (stageIs 3) s.handlers j q hq
    have a4 : stageIs 4 p = 1 := by simp [stageIs, hcp, hrest]
    have a3 : stageIs 3 q = 1 := by simp [stageIs, hcq, hrest2]
    omega

/-! ## The claims about whole runs -/

/-- C1 as stated fails with two `"/next"` requests in flight: after
`raceSchedule` both handlers have returned with `"OK next"` written, handler 0
having received the `"next"` of handler 1 and handler 1 the one `"done"`, while
`tlsServer` has called `pinState.next` once and built one new listener: two
responses, one rotation. Six transitions in, handler 0 has already written
`"OK next"` while no rotation at all has been performed. -/
theorem concurrent_next_loses_rotation :
    (run (initSys (specExt 5) (goodStartup 5)) raceSchedule).map
        (fun s => (okCount s, nextCount s, rotationCount s, allReturned s,
                   s.handlers.map fun p => p.s))
      = some (2, 1, 1, true, [tokNext, tokDone]) ∧
    (run (initSys (specExt 5) (goodStartup 5)) raceSchedule).map
        (fun s => decide (okCount s ≤ rotationCount s)) = some false ∧
    (run (initSys (specExt 5) (goodStartup 5)) (raceSchedule.take 6)).map
        (fun s => (okCount s, nextCount s, rotationCount s))
      = some (1, 0, 0) :=
  ⟨rfl, rfl, rfl⟩

/-- C1, amended: when the `"next"` handlers run one at a time, every state
the process reaches has at most as many `"OK next"` responses written as
rotations performed (listeners rebuilt after a `pinState.next` call); no
handler's receive can meet another handler's send, and every handler past its
receive holds the acknowledgment `"done"`. -/
theorem sequential_ok_le_rotations {E : Ext} (su : Startup E) (st0 : TlsState E)
    (sched : List (Choice E)) (s : Sys E)
    (hinit : (tlsServerInit E su).1 = TlsPc.accepting st0)
    (hrun : runSeq (initSys E su) sched = some s) :
    okCount s ≤ rotationCount s ∧ rotationCount s ≤ nextCount s ∧
    (∀ i j, step s (Choice.relay i j) = none) ∧
    (∀ p ∈ s.handlers, p.code.length ≤ 2 → p.s = tokDone) := by
  have hr := run_of_runSeq sched _ s hrun
  have hrot := run_rotInv sched _ s (initSys_rotInv su st0 hinit) hr
  have hseq := runSeq_seqInv sched _ s (initSys_seqInv su st0 hinit) hrun
  have hno := seqInv_no_relay s hseq
  obtain ⟨hv, hle, hlen, hrel⟩ := hseq
  unfold Sys.rotInv at hrot
  unfold rotationCount
  refine ⟨?_, ?_, hno, ?_⟩
  · cases htls : s.tls with
    | accepting st =>
      rw [htls] at hrel hrot
      simp only [tlsRel, TlsPc.isDead] at hrel hrot
      simp at hrot
      omega
    | rotating st =>
      rw [htls] at hrel hrot
      simp only [tlsRel, TlsPc.isDead] at hrel hrot
      simp at hrot
      omega
    | sendingDone st =>
      rw [htls] at hrel hrot
      simp only [tlsRel, TlsPc.isDead] at hrel hrot
      simp at hrot
      omega
    | dead =>
      rw [htls] at hrel hrot
      simp only [tlsRel, TlsPc.isDead] at hrel hrot
      simp at hrot
      omega
  · split at hrot <;> omega
  · intro p hp hlen2
    rcases validProc_cases p (hv p hp) with ⟨h, -⟩ | ⟨h, -⟩ | ⟨-, -, hs⟩ | ⟨-, -, hs⟩ |
      ⟨-, -, hs⟩
    · rw [h] at hlen2; simp [nextBranch] at hlen2
    · rw [h] at hlen2; simp at hlen2
    · exact hs
    · exact hs
    · exact hs

/-- Two sequential invocations under `specExt`: two responses, two rotations,
both handlers hold `"done"`. -/
theorem sequential_ok_le_rotations_witness :
    okCount seqFinal = 2 ∧ rotationCount seqFinal = 2 ∧
    okCount seqFinal ≤ rotationCount seqFinal ∧
    step seqFinal (Choice.relay 1 0) = none :=
  have h := sequential_ok_le_rotations (goodStartup 5) (demoState 5) seqSchedule seqFinal
    rfl rfl
  ⟨by decide, by decide, h.1, h.2.2.1 1 0⟩

/-- C2: in a run where `"/next"` is invoked strictly sequentially, starting
from a successful set-up: `pinState.new` has been called once, every
`pinState.next` call had the same target hash, and the number of
`pinState.next` calls lies between the number of responses written and the
number of invocations started. So when the last of `N` invocations has
written its response, `pinState.next` has been called exactly `N` times,
`tlsServer` is at the loop head, and, for a generator whose first record has
generation 1 and whose `next` adds 1, the current record has generation
`N + 1`. -/
theorem sequential_next_invocations {E : Ext} (su : Startup E) (st0 : TlsState E)
    (sched : List (Choice E)) (s : Sys E)
    (hinit : (tlsServerInit E su).1 = TlsPc.accepting st0)
    (hrun : runSeq (initSys E su) sched = some s) :
    pinNewCalls s.trace = [st0.targetHash] ∧
    pinNextCalls s.trace = List.replicate (nextCount s) st0.targetHash ∧
    okCount s ≤ nextCount s ∧ nextCount s ≤ s.handlers.length ∧
    (okCount s = s.handlers.length →
      nextCount s = s.handlers.length ∧
      ∃ st, s.tls = TlsPc.accepting st ∧
        ∀ (gen : E.Tack → Nat) (cur : E.PinState → Nat),
          (∀ ps h, gen (E.pinNew ps h).2 = 1 ∧ cur (E.pinNew ps h).1 = 1) →
          (∀ ps h, gen (E.pinNext ps h).2 = cur ps + 1 ∧
            cur (E.pinNext ps h).1 = cur ps + 1) →
          gen st.t = s.handlers.length + 1) := by
  have hr := run_of_runSeq sched _ s hrun
  obtain ⟨i1, i2, -⟩ := run_inv sched _ s st0 (initSys_inv su st0 hinit) hr
  obtain ⟨-, hle, hlen, hrel⟩ := runSeq_seqInv sched _ s (initSys_seqInv su st0 hinit) hrun
  have hbounds : okCount s ≤ nextCount s ∧ nextCount s ≤ s.handlers.length ∧
      (okCount s = s.handlers.length →
        nextCount s = s.handlers.length ∧ ∃ st, s.tls = TlsPc.accepting st) := by
    cases htls : s.tls with
    | accepting st =>
      rw [htls] at hrel
      simp only [tlsRel] at hrel
      refine ⟨by omega, by omega, fun h => ⟨by omega, st, rfl⟩⟩
    | rotating st =>
      rw [htls] at hrel
      simp only [tlsRel] at hrel
      refine ⟨by omega, by omega, fun h => ?_⟩
      omega
    | sendingDone st =>
      rw [htls] at hrel
      simp only [tlsRel] at hrel
      refine ⟨by omega, by omega, fun h => ?_⟩
      omega
    | dead =>
      rw [htls] at hrel
      simp only [tlsRel] at hrel
      refine ⟨by omega, by omega, fun h => ?_⟩
      omega
  refine ⟨i1, i2, hbounds.1, hbounds.2.1, ?_⟩
  intro hall
  obtain ⟨hn, st, htls⟩ := hbounds.2.2 hall
  refine ⟨hn, st, htls, ?_⟩
  intro gen cur hnew hnext
  have hg := run_genInv gen cur hnext sched _ s (initSys_genInv gen cur hnew su st0 hinit) hr
  rw [← hn]
  exact (hg st (by rw [htls]; rfl)).1

/-- Two sequential invocations under `specExt`: two `pinState.next` calls and
a current record of generation 3. -/
theorem sequential_next_invocations_witness :
    seqFinal.handlers.length = 2 ∧ okCount seqFinal = 2 ∧ nextCount seqFinal = 2 ∧
    pinNewCalls seqFinal.trace = [[1, 2, 3]] ∧
    pinNextCalls seqFinal.trace = [[1, 2, 3], [1, 2, 3]] ∧
    ∃ st, seqFinal.tls = TlsPc.accepting st ∧ st.t.generation = 3 :=
  have h := sequential_next_invocations (goodStartup 5) (demoState 5) seqSchedule seqFinal
    rfl rfl
  have hok : okCount seqFinal = seqFinal.handlers.length := by decide
  have hst := (h.2.2.2.2 hok).2
  ⟨by decide, by decide, (h.2.2.2.2 hok).1, h.1, h.2.1,
   hst.choose, hst.choose_spec.1,
   hst.choose_spec.2 (fun t : PinRecord => t.generation) (fun ps : PinState => ps.generation)
     (fun _ _ => ⟨rfl, rfl⟩) (fun _ _ => ⟨rfl, rfl⟩)⟩

/-! ## The failing rotation in a running process -/

theorem total_ge_mem (f : Proc → Nat) (l : List Proc) (p : Proc) (h : p ∈ l) :
    f p ≤ total f l := by
  obtain ⟨i, hi⟩ := List.mem_iff_getElem?.mp h
  exact total_ge f l i p hi

/-- C8 as stated fails with two `"/next"` requests in flight: after
`crashSchedule` the rotation for the request of handler 0 has failed
(`tlsServer` has panicked after one `pinState.next` call, no listener was
rebuilt, no `"done"` was ever sent), and yet handler 0, whose request started
that rotation, has already written `"OK next"`, released by the `"next"` of
handler 1. -/
theorem concurrent_payload_failure_answers_caller :
    (run (initSys (specExt 1) (goodStartup 1)) crashSchedule).map
        (fun s => (s.tls.isDead, nextCount s, rotationCount s,
                   s.trace.countP Event.isChanSend, okCount s,
                   s.handlers.map fun p => (p.s, p.out)))
      = some (true, 1, 0, 0, 1, [(tokNext, [okNext]), ([], [])]) ∧
    (run (initSys (specExt 1) (goodStartup 1)) (crashSchedule.take 6)).map
        (fun s => (s.tls.state?.map fun st =>
                     decide (((specExt 1).NewTackExtension
                       [((specExt 1).pinNext st.pinState st.targetHash).2] 1).toBool = false),
                   s.handlers.map fun p => p.out))
      = some (some true, [[okNext], []]) :=
  ⟨rfl, rfl⟩

/-- C8, amended: when the `"next"` handlers run one at a time and
`tack.NewTackExtension` fails in the rotation, after the `pinState.next` call,
`tlsServer` panics there: the iteration ends in the terminated process, having
built no listener and sent nothing. At that point every handler but one has
returned, the responses written are as many as the rotations completed
before, and the one handler left, whose request started this rotation, is
parked on its receive with nothing written. The transition leaves every
handler as it was and from the state it reaches no transition is enabled, so
no caller receives `"OK next"` for that rotation. -/
theorem sequential_payload_failure {E : Ext} (su : Startup E) (st0 st : TlsState E)
    (sched : List (Choice E)) (s : Sys E) (e err : E.Error)
    (hinit : (tlsServerInit E su).1 = TlsPc.accepting st0)
    (hrun : runSeq (initSys E su) sched = some s)
    (htls : s.tls = TlsPc.rotating st)
    (hext : E.NewTackExtension [(E.pinNext st.pinState st.targetHash).2] 1 = .error err) :
    rotateStep st
      = (TlsPc.dead,
         [Event.pinNext st.targetHash,
          Event.newTackExtension [(E.pinNext st.pinState st.targetHash).2] 1,
          Event.fatal]) ∧
    loopIteration st (.error e) (some tokNext)
      = (TlsPc.dead,
         [Event.setDeadline, Event.accept (.error e), Event.chanPoll (some tokNext),
          Event.logStderr tokNext,
          Event.pinNext st.targetHash,
          Event.newTackExtension [(E.pinNext st.pinState st.targetHash).2] 1,
          Event.fatal]) ∧
    (loopIteration st (.error e) (some tokNext)).2.countP Event.isChanSend = 0 ∧
    (loopIteration st (.error e) (some tokNext)).2.countP Event.isNewListener = 0 ∧
    seqStep s Choice.rotate
      = some { tls := TlsPc.dead, handlers := s.handlers,
               trace := s.trace ++ [Event.pinNext st.targetHash,
                 Event.newTackExtension [(E.pinNext st.pinState st.targetHash).2] 1,
                 Event.fatal] } ∧
    (∀ (c : Choice E) (hs : List Proc) (tr : List (Event E)),
      step { tls := TlsPc.dead, handlers := hs, trace := tr } c = none) ∧
    (∀ (sched2 : List (Choice E)) (hs : List Proc) (tr : List (Event E)) (s2 : Sys E),
      run { tls := TlsPc.dead, handlers := hs, trace := tr } sched2 = some s2 →
      sched2 = [] ∧ s2.handlers = hs ∧ okCount s2 = total okOf hs) ∧
    okCount s = rotationCount s ∧
    rotationCount
        ({ tls := TlsPc.dead, handlers := s.handlers,
           trace := s.trace ++ [Event.pinNext st.targetHash,
             Event.newTackExtension [(E.pinNext st.pinState st.targetHash).2] 1,
             Event.fatal] } : Sys E)
      = rotationCount s ∧
    okCount s + 1 = s.handlers.length ∧
    total (stageIs 3) s.handlers = 1 ∧
    (∀ p ∈ s.handlers,
      (p.code = [] ∧ p.out = [okNext] ∧ p.s = tokDone) ∨
      (p.code = [Stmt.chanRecvS, Stmt.logS, Stmt.write okNext] ∧ p.out = [])) := by
  obtain ⟨g1, g2, g3, g4, g5, g6, g7⟩ := rotateStep_failure_effects s st e err htls hext
  have hr := run_of_runSeq sched _ s hrun
  have hrot := run_rotInv sched _ s (initSys_rotInv su st0 hinit) hr
  obtain ⟨hv, hle, hlen, hrel⟩ := runSeq_seqInv sched _ s (initSys_seqInv su st0 hinit) hrun
  unfold Sys.rotInv at hrot
  rw [htls] at hrel hrot
  simp only [tlsRel, TlsPc.isDead] at hrel hrot
  simp only [Bool.false_eq_true, if_false, Nat.add_zero] at hrot
  refine ⟨g1, g2, g3, g4, ?_, g6, g7, ?_, ?_, by omega, hrel.1, ?_⟩
  · have : seqAllowed s (Choice.rotate : Choice E) = true := rfl
    simp only [seqStep, this, if_true]
    exact g5
  · unfold rotationCount
    omega
  · unfold rotationCount
    simp only [List.countP_append, List.countP_cons, List.countP_nil, Event.isNewListener]
    simp
  · intro p hp
    have h4 := total_ge_mem (stageIs 4) s.handlers p hp
    have h2 := total_ge_mem (stageIs 2) s.handlers p hp
    have h1 := total_ge_mem (stageIs 1) s.handlers p hp
    rcases validProc_cases p (hv p hp) with ⟨h, ho⟩ | ⟨h, ho⟩ | ⟨h, ho, hs⟩ | ⟨h, ho, hs⟩ |
      ⟨h, ho, hs⟩
    · have : stageIs 4 p = 1 := by simp [stageIs, h, nextBranch]
      omega
    · exact Or.inr ⟨h, ho⟩
    · have : stageIs 2 p = 1 := by simp [stageIs, h]
      omega
    · have : stageIs 1 p = 1 := by simp [stageIs, h]
      omega
    · exact Or.inl ⟨h, ho, hs⟩

/-- One sequential invocation under `specExt 1`: the rotation fails with the
caller parked on its receive, nothing written. -/
theorem sequential_payload_failure_witness :
    rotateStep (demoState 1)
      = (TlsPc.dead,
         [Event.pinNext [1, 2, 3],
          Event.newTackExtension [({ target := [1, 2, 3], generation := 2 } : PinRecord)] 1,
          Event.fatal]) ∧
    (loopIteration (demoState 1) (.error ()) (some tokNext)).2.countP Event.isChanSend = 0 ∧
    okCount seqCrashState = 0 ∧ rotationCount seqCrashState = 0 ∧
    seqCrashState.handlers
      = [{ code := [Stmt.chanRecvS, Stmt.logS, Stmt.write okNext], s := [], out := [] }] :=
  have h := sequential_payload_failure (goodStartup 1) (demoState 1) (demoState 1)
    seqCrashSchedule seqCrashState () () rfl rfl rfl rfl
  ⟨h.1, h.2.2.1, by decide, by decide, by decide⟩

end Tacktestbed
